import Mathlib

/-!
Verification of the `portfolio` Maya/Houdini pipeline tools against their
natural-language specification.  The Python functions of the repository are
shallowly embedded as Lean definitions; definition names follow the source
symbols in `src/pipeline/`.  Python strings are modelled as lists of
characters, host-application calls (Maya `cmds`, `OpenMaya`, Houdini `hou`)
as explicit state passing or oracles, and fallible code as `Option`/`Except`.
-/

/-- Python strings (file names, node names, pattern text) are modelled as
lists of characters. -/
abbrev Str := List Char

/-- A generic helper: `dropWhile` never lengthens a list. -/
theorem length_dropWhile_le {α : Type} (p : α → Bool) (l : List α) :
    (l.dropWhile p).length ≤ l.length := by
  induction l with
  | nil => simp [List.dropWhile]
  | cons a t ih =>
    by_cases h : p a
    · simp only [List.dropWhile, h]
      exact Nat.le_succ_of_le ih
    · simp [List.dropWhile, h]

/-- The decimal digit string of a natural number (Python `str(n)` for
non-negative `n`). -/
def decDigits (n : Nat) : Str := Nat.toDigits 10 n

namespace DagRenamer

/-!
## `src/pipeline/ala_dagRenamer.py`

`RenameCommand` / `MultiRenameCommand` (lines 113-146) and
`DagRenamer.applySpecialRenameToTree` with its inner helpers
`intToLetters` and `computeNewNameForItem` (lines 667-727).
-/

/-- A change record as stored by `MultiRenameCommand.__init__`: the affected
tree item (identified by an id), its recorded new name and old name. -/
structure RChange where
  item : Nat
  newName : Str
  oldName : Str
  deriving DecidableEq, Repr

/-- `RenameCommand(item, newName, oldName)`: an undoable command affecting a
single item (modelled as a one-element change list). -/
def RenameCommand (item : Nat) (newName oldName : Str) : List RChange :=
  [⟨item, newName, oldName⟩]

/-- `MultiRenameCommand(items, newNames, oldNames)`: `zip` pairs the three
lists (truncating at the shortest, as Python's `zip` does) into change
records. -/
def MultiRenameCommand (items : List Nat) (newNames oldNames : List Str) :
    List RChange :=
  (items.zip (newNames.zip oldNames)).map (fun x => ⟨x.1, x.2.1, x.2.2⟩)

/-- The editable tree's displayed texts, as a map from item id to the text of
column 0. -/
abbrev TreeTexts : Type := Nat → Str

/-- `redo`: for each change in order, set the item's displayed text to the
recorded new name (`setTextProgrammatic(item, 0, newName)`). -/
def redoCmd (changes : List RChange) (texts : TreeTexts) : TreeTexts :=
  changes.foldl (fun t c => Function.update t c.item c.newName) texts

/-- `undo`: for each change in order, set the item's displayed text back to
the recorded old name. -/
def undoCmd (changes : List RChange) (texts : TreeTexts) : TreeTexts :=
  changes.foldl (fun t c => Function.update t c.item c.oldName) texts

/-- Folding item updates over a change list leaves ids outside the list
untouched. -/
theorem foldUpdate_not_mem (f : RChange → Str) (changes : List RChange)
    (texts : TreeTexts) (i : Nat) (h : i ∉ changes.map (·.item)) :
    changes.foldl (fun (t : TreeTexts) c => Function.update t c.item (f c)) texts i =
      texts i := by
  induction changes generalizing texts with
  | nil => rfl
  | cons c cs ih =>
    simp only [List.map_cons, List.mem_cons] at h
    push_neg at h
    simp only [List.foldl_cons]
    rw [ih _ h.2, Function.update_noteq h.1]

/-- Folding item updates over a change list with pairwise-distinct item ids
sets each listed item's text to the value recorded for it. -/
theorem foldUpdate_mem (f : RChange → Str) (changes : List RChange)
    (texts : TreeTexts) (c : RChange) (hc : c ∈ changes)
    (hnd : (changes.map (·.item)).Nodup) :
    changes.foldl (fun (t : TreeTexts) ch => Function.update t ch.item (f ch)) texts c.item =
      f c := by
  induction changes generalizing texts with
  | nil => cases hc
  | cons d ds ih =>
    simp only [List.map_cons, List.nodup_cons] at hnd
    rcases List.mem_cons.mp hc with rfl | hmem
    · simp only [List.foldl_cons]
      rw [foldUpdate_not_mem f ds _ c.item hnd.1, Function.update_same]
    · simp only [List.foldl_cons]
      exact ih _ hmem hnd.2

/-- The item ids of a `MultiRenameCommand`'s change list form a sublist of
the given item list. -/
theorem multiRename_items_sublist (items : List Nat) (ns os : List Str) :
    List.Sublist ((MultiRenameCommand items ns os).map (·.item)) items := by
  unfold MultiRenameCommand
  induction items generalizing ns os with
  | nil => simp [List.zip]
  | cons i is ih =>
    cases ns with
    | nil => simp [List.zip]
    | cons n ns =>
      cases os with
      | nil => simp [List.zip]
      | cons o os =>
        simpa using (ih ns os).cons₂ i

/-- **C2.** For every `RenameCommand` and every `MultiRenameCommand` built
from lists of items with their old and new names (the item ids being
pairwise distinct), `redo` sets each affected item's displayed text to its
recorded new name, `undo` sets it back to its recorded old name, and the two
operations are mutually inverse on the affected items' texts: redo followed
by undo leaves every affected item's text at its old name, and undo followed
by redo leaves it at its new name. -/
theorem renameCommands_redo_undo_inverse
    (i : Nat) (n o : Str) (items : List Nat) (ns os : List Str)
    (texts : TreeTexts) (hnd : items.Nodup) :
    (redoCmd (RenameCommand i n o) texts i = n ∧
      undoCmd (RenameCommand i n o) texts i = o ∧
      undoCmd (RenameCommand i n o) (redoCmd (RenameCommand i n o) texts) i
        = o ∧
      redoCmd (RenameCommand i n o) (undoCmd (RenameCommand i n o) texts) i
        = n) ∧
    ∀ c ∈ MultiRenameCommand items ns os,
      redoCmd (MultiRenameCommand items ns os) texts c.item = c.newName ∧
      undoCmd (MultiRenameCommand items ns os) texts c.item = c.oldName ∧
      undoCmd (MultiRenameCommand items ns os)
          (redoCmd (MultiRenameCommand items ns os) texts) c.item
        = c.oldName ∧
      redoCmd (MultiRenameCommand items ns os)
          (undoCmd (MultiRenameCommand items ns os) texts) c.item
        = c.newName := by
  have hmnd : ((MultiRenameCommand items ns os).map (·.item)).Nodup :=
    hnd.sublist (multiRename_items_sublist items ns os)
  constructor
  · refine ⟨?_, ?_, ?_, ?_⟩ <;>
      simp [redoCmd, undoCmd, RenameCommand, Function.update_same]
  · intro c hc
    exact ⟨foldUpdate_mem (·.newName) _ texts c hc hmnd,
      foldUpdate_mem (·.oldName) _ texts c hc hmnd,
      foldUpdate_mem (·.oldName) _ _ c hc hmnd,
      foldUpdate_mem (·.newName) _ _ c hc hmnd⟩

/-- Witness for C2 at a concrete command: two items named back and forth. -/
theorem renameCommands_redo_undo_inverse_witness :
    [5, 7].Nodup ∧
      redoCmd (MultiRenameCommand [5, 7] [['a']] [['b']])
          (undoCmd (MultiRenameCommand [5, 7] [['a']] [['b']]) (fun _ => [])) 5
        = ['a'] := by
  have h := renameCommands_redo_undo_inverse 0 [] [] [5, 7]
    [['a']] [['b']] (fun _ => []) (by decide)
  refine ⟨by decide, ?_⟩
  have hmem : (⟨5, ['a'], ['b']⟩ : RChange) ∈
      MultiRenameCommand [5, 7] [['a']] [['b']] := by decide
  simpa using (h.2 _ hmem).2.2.2

/-- A `QTreeWidgetItem` of the editable tree: an item id, the displayed text
of column 0, and the child items in order. -/
inductive TItem : Type where
  | node (id : Nat) (text : Str) (children : List TItem)

/-- A flattened record of one tree item: its id, its text, and the text of
its parent item (`none` at top level). -/
structure FlatItem where
  id : Nat
  text : Str
  parentText : Option Str
  deriving DecidableEq, Repr

mutual

/-- `QTreeWidgetTraverser.traversePreOrder` restricted to one subtree:
the item itself, then its children's subtrees left to right. -/
def preOrder (parentText : Option Str) : TItem → List FlatItem
  | .node i t cs => ⟨i, t, parentText⟩ :: preOrderList (some t) cs

/-- Pre-order traversal of a forest of sibling subtrees. -/
def preOrderList (parentText : Option Str) : List TItem → List FlatItem
  | [] => []
  | t :: ts => preOrder parentText t ++ preOrderList parentText ts

end

/-- Characters consumed by the `(?:[#\$])+` branch of the substitution
regex: `#` and `$`. -/
def isHD (c : Char) : Bool := c = '#' || c = '$'

/-- Python whitespace as stripped by `str.strip()`. -/
def isPySpace (c : Char) : Bool :=
  c = ' ' || c = '\t' || c = '\n' || c = '\r' ||
    c = Char.ofNat 11 || c = Char.ofNat 12

/-- `str.strip()`: drop leading and trailing whitespace. -/
def stripPy (s : Str) : Str :=
  ((s.dropWhile isPySpace).reverse.dropWhile isPySpace).reverse

/-- `specialText.split("\n")[0]`: the first line of the pattern. -/
def firstLine (s : Str) : Str := s.takeWhile (· ≠ '\n')

/-- Python `f"{seq:0{width}d}"`: the decimal rendering of `seq` left-padded
with zeros to `width` characters. -/
def padZeros (width : Nat) (s : Str) : Str :=
  List.replicate (width - s.length) '0' ++ s

/-- The digit-collecting loop of `intToLetters`: `width` iterations of
`result.append(chr((num % 26) + ord('A'))); num //= 26`, in append order.
Python's `%` and `//` are Euclidean on these values, hence `Int.emod` and
`Int.ediv`. -/
def intToLettersAux : Int → Nat → Str
  | _, 0 => []
  | num, w + 1 =>
    Char.ofNat ((num.emod 26).toNat + 65) :: intToLettersAux (num.ediv 26) w

/-- `intToLetters(num, width)` (lines 686-693): convert a 1-indexed integer
to a fixed-width letter sequence (the appended digits are reversed at the
end). -/
def intToLetters (num : Int) (width : Nat) : Str :=
  (intToLettersAux (num - 1) width).reverse

/-- The `replacer` inner function of `computeNewNameForItem` (lines
697-712): dispatch on the first character of the matched token; the final
`assert(False)` branch is modelled as `none`. -/
def replacer (own : Str) (parent : Option Str) (seq : Nat) (token : Str) :
    Option Str :=
  match token.head? with
  | some '#' => some (padZeros token.length (decDigits seq))
  | some '$' => some (intToLetters (Int.ofNat seq) token.length)
  | some '@' => some (parent.getD own)
  | some '!' => some own
  | _ => none

/-- One lexical piece of the pattern under the substitution regex
`((?:[#\$])+|[!@])`: a matched run of `#`/`$` characters, a matched single
`!`/`@`, or an unmatched literal character copied through. -/
inductive Tok : Type where
  | run (chars : Str)
  | single (c : Char)
  | lit (c : Char)
  deriving DecidableEq, Repr

/-- The match structure of `re.sub(r"((?:[#\$])+|[!@])", ...)` on a pattern:
scanning left to right, the greedy `(?:[#\$])+` branch consumes each maximal
run of `#`/`$` characters as one match, the `[!@]` branch consumes a single
`!` or `@`, and every other character is an unmatched literal.  (Built by a
right fold: a `#`/`$` extends an adjacent run to its right, so runs are
maximal.) -/
def tokStep (c : Char) (toks : List Tok) : List Tok :=
  if isHD c then
    match toks with
    | Tok.run r :: rest => Tok.run (c :: r) :: rest
    | _ => Tok.run [c] :: toks
  else if c = '!' || c = '@' then Tok.single c :: toks
  else Tok.lit c :: toks

/-- Tokenising a pattern processes its characters right to left with
`tokStep`. -/
def tokenize : Str → List Tok
  | [] => []
  | c :: rest => tokStep c (tokenize rest)

/-- The text a token contributes through `replacer`; unmatched literals are
copied unchanged. -/
def tokRepl (own : Str) (parent : Option Str) (seq : Nat) : Tok → Option Str
  | Tok.run r => replacer own parent seq r
  | Tok.single c => replacer own parent seq [c]
  | Tok.lit c => some [c]

/-- `re.sub(r"((?:[#\$])+|[!@])", replacer, specialText)`: replace every
match by `replacer`'s result and concatenate.  A `none` result models the
assertion failure inside `replacer`. -/
def subSpecial (own : Str) (parent : Option Str) (seq : Nat) (p : Str) :
    Option Str :=
  ((tokenize p).mapM (tokRepl own parent seq)).map List.flatten

/-- `computeNewNameForItem(item, seq)` (lines 695-713) for an item with
displayed text `own` and parent text `parent`, applied to the (already
stripped) first line of the special text. -/
def computeNewNameForItem (own : Str) (parent : Option Str) (seq : Nat)
    (line : Str) : Option Str :=
  subSpecial own parent seq line

/-- `DagRenamer.applySpecialRenameToTree(specialText, selectionOrderReversed)`
(lines 667-727) on a forest of editable tree items with a selection given by
item ids: take the first line of the special text and strip it, order the
selected items by pre-order traversal (reversed when requested), and build
the `MultiRenameCommand` content `(item, newName, oldName)` with the items
numbered from 1.  `none` models the early return on an empty selection (and,
never reached, the assertion failure). -/
def applySpecialRenameToTree (forest : List TItem) (selection : List Nat)
    (specialText : Str) (selectionOrderReversed : Bool) :
    Option (List (Nat × Str × Str)) :=
  let line := stripPy (firstLine specialText)
  let preOrderedItems :=
    (preOrderList none forest).filter (fun r => selection.contains r.id)
  if preOrderedItems.isEmpty then none
  else
    let ordered :=
      if selectionOrderReversed then preOrderedItems.reverse
      else preOrderedItems
    ordered.enum.mapM fun x =>
      (computeNewNameForItem x.2.text x.2.parentText (x.1 + 1) line).map
        fun nn => (x.2.id, nn, x.2.text)

/-- Well-formedness of a token produced by the substitution regex: a matched
run is nonempty and starts with `#` or `$`; a matched single character is
`!` or `@`. -/
def tokOk : Tok → Prop
  | Tok.run r =>
    match r with
    | [] => False
    | c :: _ => isHD c = true
  | Tok.single c => c = '!' ∨ c = '@'
  | Tok.lit _ => True

/-- Every token produced by `tokStep` from well-formed tokens is
well-formed. -/
theorem tokStep_ok (c : Char) (toks : List Tok)
    (h : ∀ t ∈ toks, tokOk t) : ∀ t ∈ tokStep c toks, tokOk t := by
  intro t ht
  unfold tokStep at ht
  by_cases hc : isHD c
  · simp only [hc, if_pos] at ht
    match toks, h with
    | Tok.run r :: rest, h =>
      rcases List.mem_cons.mp ht with rfl | hmem
      · exact hc
      · exact h _ (List.mem_cons_of_mem _ hmem)
    | [], h =>
      rcases List.mem_cons.mp ht with rfl | hmem
      · exact hc
      · cases hmem
    | Tok.single d :: rest, h =>
      rcases List.mem_cons.mp ht with rfl | hmem
      · exact hc
      · exact h _ hmem
    | Tok.lit d :: rest, h =>
      rcases List.mem_cons.mp ht with rfl | hmem
      · exact hc
      · exact h _ hmem
  · simp only [hc] at ht
    by_cases hb : (c = '!' || c = '@') = true
    · simp only [hb, if_true, if_false] at ht
      rcases List.mem_cons.mp ht with rfl | hmem
      · simpa [tokOk] using hb
      · exact h _ hmem
    · simp only [hb, if_false, Bool.false_eq_true] at ht
      rcases List.mem_cons.mp ht with rfl | hmem
      · trivial
      · exact h _ hmem

/-- Every token of a tokenised pattern is well-formed. -/
theorem tokenize_ok (p : Str) : ∀ t ∈ tokenize p, tokOk t := by
  induction p with
  | nil => intro t ht; cases ht
  | cons c rest ih => exact tokStep_ok c (tokenize rest) ih

/-- What a well-formed token contributes, `replacer`'s branches spelled out:
a run starting with `#` becomes the zero-padded decimal of `seq`, a run
starting with `$` the fixed-width letter rendering, `@` the parent's name
(the item's own name at top level), `!` the item's own name. -/
def blockRepl (own : Str) (parent : Option Str) (seq : Nat) : Tok → Str
  | Tok.run r =>
    if r.head? = some '#' then padZeros r.length (decDigits seq)
    else intToLetters (Int.ofNat seq) r.length
  | Tok.single c => if c = '@' then parent.getD own else own
  | Tok.lit c => [c]

/-- On well-formed tokens, `replacer` never hits its assertion and agrees
with `blockRepl`. -/
theorem tokRepl_eq_blockRepl (own : Str) (parent : Option Str) (seq : Nat)
    (t : Tok) (h : tokOk t) :
    tokRepl own parent seq t = some (blockRepl own parent seq t) := by
  match t, h with
  | Tok.run (c :: r), h =>
    have : c = '#' ∨ c = '$' := by simpa [tokOk, isHD] using h
    rcases this with rfl | rfl
    · simp [tokRepl, replacer, blockRepl]
    · simp [tokRepl, replacer, blockRepl]
  | Tok.single c, h =>
    rcases h with rfl | rfl
    · simp [tokRepl, replacer, blockRepl]
    · simp [tokRepl, replacer, blockRepl]
  | Tok.lit c, _ => simp [tokRepl, blockRepl]

/-- Mapping an option-valued function that is pointwise `some` of a pure
function over a list yields `some` of the mapped list. -/
theorem mapM_eq_some_map {α β : Type} (f : α → Option β) (g : α → β)
    (l : List α) (h : ∀ a ∈ l, f a = some (g a)) :
    l.mapM f = some (l.map g) := by
  induction l with
  | nil => rfl
  | cons a t ih =>
    rw [List.mapM_cons, h a (List.mem_cons_self a t),
      ih (fun b hb => h b (List.mem_cons_of_mem _ hb))]
    rfl

/-- The substitution over the whole pattern: decompose into tokens and
replace each with `blockRepl`.  This is the amended claim's description of
the new-name computation. -/
def amendedSub (own : Str) (parent : Option Str) (seq : Nat) (p : Str) :
    Str :=
  ((tokenize p).map (blockRepl own parent seq)).flatten

/-- `subSpecial` never fails and computes `amendedSub`. -/
theorem subSpecial_eq_amendedSub (own : Str) (parent : Option Str)
    (seq : Nat) (p : Str) :
    subSpecial own parent seq p = some (amendedSub own parent seq p) := by
  unfold subSpecial amendedSub
  rw [mapM_eq_some_map _ (blockRepl own parent seq) _
    (fun t ht => tokRepl_eq_blockRepl own parent seq t (tokenize_ok p t ht))]
  rfl

/-- **C8.** The assertion-failure branch of the special-rename `replacer` is
unreachable: for every pattern (and every item text, parent text and
sequence number), every match produced by the substitution regex
`((?:[#\$])+|[!@])` begins with `#`, `$`, `!` or `@`, so the substitution
always returns a string and never raises the assertion error. -/
theorem subSpecial_assertion_unreachable (own : Str) (parent : Option Str)
    (seq : Nat) (p : Str) :
    (∀ t ∈ tokenize p, tokOk t) ∧ (subSpecial own parent seq p).isSome := by
  refine ⟨tokenize_ok p, ?_⟩
  rw [subSpecial_eq_amendedSub]
  rfl

/-- The claim's reading of the token decomposition: each maximal run of `#`
characters is one token and each maximal run of `$` characters is a separate
token (a `#`/`$` only extends an adjacent run of the *same* character). -/
def claimTokStep (c : Char) (toks : List Tok) : List Tok :=
  if isHD c then
    match toks with
    | Tok.run (d :: r) :: rest =>
      if d = c then Tok.run (c :: d :: r) :: rest
      else Tok.run [c] :: toks
    | _ => Tok.run [c] :: toks
  else if c = '!' || c = '@' then Tok.single c :: toks
  else Tok.lit c :: toks

/-- Token decomposition as the claim states it (same-character maximal
runs). -/
def claimTokenize : Str → List Tok
  | [] => []
  | c :: rest => claimTokStep c (claimTokenize rest)

/-- The new name of the `seq`-th item as the claim states it: replacements
applied to same-character maximal runs of the (unstripped) pattern line. -/
def claimNewNameForItem (own : Str) (parent : Option Str) (seq : Nat)
    (line : Str) : Str :=
  ((claimTokenize line).map (blockRepl own parent seq)).flatten

/-- The renaming outcome predicted by claim C1 as stated: items in pre-order
(reversed when requested) numbered from 1, new names computed by
`claimNewNameForItem` from the first line of the entered pattern. -/
def claimRenameResult (forest : List TItem) (selection : List Nat)
    (specialText : Str) (selectionOrderReversed : Bool) :
    List (Nat × Str × Str) :=
  let line := firstLine specialText
  let preOrderedItems :=
    (preOrderList none forest).filter (fun r => selection.contains r.id)
  let ordered :=
    if selectionOrderReversed then preOrderedItems.reverse
    else preOrderedItems
  ordered.enum.map fun x =>
    (x.2.id, claimNewNameForItem x.2.text x.2.parentText (x.1 + 1) line,
      x.2.text)

/-- The renaming outcome after the amendment: the pattern line is stripped
of surrounding whitespace, and a maximal run of characters drawn from
`#`/`$` is replaced as one unit according to its first character. -/
def amendedRenameResult (forest : List TItem) (selection : List Nat)
    (specialText : Str) (selectionOrderReversed : Bool) :
    List (Nat × Str × Str) :=
  let line := stripPy (firstLine specialText)
  let preOrderedItems :=
    (preOrderList none forest).filter (fun r => selection.contains r.id)
  let ordered :=
    if selectionOrderReversed then preOrderedItems.reverse
    else preOrderedItems
  ordered.enum.map fun x =>
    (x.2.id, amendedSub x.2.text x.2.parentText (x.1 + 1) line, x.2.text)

/-- **C1, counterexample.** On the pattern `"#$ "` applied to a single
selected item named `x`, the code collapses the mixed run `#$` into one
match replaced by the two-digit `01` and strips the trailing blank, while
the claim as stated predicts separate runs `#` and `$` giving `1A` and
keeps the blank: the produced new name differs from the claimed one. -/
theorem applySpecialRename_claim_counterexample :
    applySpecialRenameToTree [TItem.node 0 ['x'] []] [0] ['#', '$', ' ']
        false
      = some [(0, ['0', '1'], ['x'])] ∧
    claimRenameResult [TItem.node 0 ['x'] []] [0] ['#', '$', ' '] false
      = [(0, ['1', 'A', ' '], ['x'])] ∧
    applySpecialRenameToTree [TItem.node 0 ['x'] []] [0] ['#', '$', ' ']
        false
      ≠ some (claimRenameResult [TItem.node 0 ['x'] []] [0] ['#', '$', ' ']
        false) := by
  refine ⟨by decide, by decide, by decide⟩

/-- **C1, amended.** For every application of the special rename to a
selection of editable tree items with at least one selected item in the
tree, the items are ordered by pre-order traversal (reversed when the
reverse option is set) and numbered `k = 1..n`, and the new name of the
`k`-th item is obtained from the first line of the entered pattern,
stripped of surrounding whitespace (later lines are ignored), by replacing
each maximal run of `m` consecutive characters drawn from `#` and `$` with
`k` in decimal zero-padded to `m` digits when the run starts with `#` and
with the `m`-letter base-26 rendering of `k-1` (`A` = 0) when it starts
with `$`, each single `!` with the item's current name, and each single `@`
with the item's parent's name, or the item's own name when it has no
parent. -/
theorem applySpecialRename_amended (forest : List TItem)
    (selection : List Nat) (specialText : Str) (rev : Bool)
    (h : (preOrderList none forest).filter
      (fun r => selection.contains r.id) ≠ []) :
    applySpecialRenameToTree forest selection specialText rev
      = some (amendedRenameResult forest selection specialText rev) := by
  unfold applySpecialRenameToTree amendedRenameResult
  simp only [List.isEmpty_iff, h, if_false]
  exact mapM_eq_some_map _ _ _ fun x _ => by
    rw [computeNewNameForItem, subSpecial_eq_amendedSub]
    rfl

/-- Witness for C1 (amended) at a concrete tree: a parent `A` with child
`B`, both selected, pattern `"$$_#!@"`. -/
theorem applySpecialRename_amended_witness :
    (preOrderList none [TItem.node 1 ['A'] [TItem.node 2 ['B'] []]]).filter
        (fun r => [1, 2].contains r.id) ≠ [] ∧
    applySpecialRenameToTree [TItem.node 1 ['A'] [TItem.node 2 ['B'] []]]
        [1, 2] ['$', '$', '_', '#', '!', '@'] false
      = some (amendedRenameResult
          [TItem.node 1 ['A'] [TItem.node 2 ['B'] []]] [1, 2]
          ['$', '$', '_', '#', '!', '@'] false) :=
  ⟨by decide,
    applySpecialRename_amended [TItem.node 1 ['A'] [TItem.node 2 ['B'] []]]
      [1, 2] ['$', '$', '_', '#', '!', '@'] false (by decide)⟩

end DagRenamer

namespace CurveExtraction

/-!
## `src/pipeline/ala_curveExtraction.py`

`CurveExtraction._extractCurve` (lines 67-114).  World positions and curve
parameters are modelled as rationals; the two Maya oracles are the
`cmds.pointPosition` query and the `MFnNurbsCurve.closestPoint` parameter.
-/

/-- A world-space position. -/
abbrev Point : Type := ℚ × ℚ × ℚ

/-- The host-API calls `_extractCurve` performs, in order. -/
inductive ApiCall : Type where
  | pointPosition (v : Nat)
  | closestPoint (p : Point)
  | spaceLocator (name : Str)
  | xform (name : Str) (p : Point)
  | setLocalScale (name : Str)
  | pathAnimation (name : Str)
  | setUValue (name : Str) (u : ℚ)
  | disconnectAttr (name : Str)
  deriving DecidableEq

/-- Whether an API call is a `closestPoint` query against the target
curve's NURBS function set. -/
def ApiCall.isClosestPoint : ApiCall → Bool
  | ApiCall.closestPoint _ => true
  | _ => false

/-- A created locator: its name, its world position, and the `uValue` set
on its motion path. -/
structure Locator where
  name : Str
  pos : Point
  uValue : ℚ
  deriving DecidableEq

/-- The comparison used by `pointsAndUValues.sort(key=lambda x: x[1])`. -/
def byUValue (a b : Point × ℚ) : Bool := a.2 ≤ b.2

/-- The per-locator block of API calls issued by the final loop. -/
def locatorCalls (name : Str) (p : Point) (u : ℚ) : List ApiCall :=
  [ApiCall.spaceLocator name, ApiCall.xform name p,
    ApiCall.setLocalScale name, ApiCall.pathAnimation name,
    ApiCall.setUValue name u, ApiCall.disconnectAttr name]

/-- The `pointsAndUValues` list after `sort(key=lambda x: x[1])`: each
world position paired with the parameter of its single `closestPoint`
query, sorted by parameter (a stable sort, like Python's `list.sort`). -/
def sortedPairs (selections : List Nat) (pos : Nat → Point)
    (closest : Point → ℚ) : List (Point × ℚ) :=
  (((selections.map pos)).map (fun p => (p, closest p))).mergeSort byUValue

/-- The locators created by the final loop: `locator_{i+1}` at the `i`-th
sorted pair's position, with that pair's parameter as `uValue`. -/
def extractLocators (selections : List Nat) (pos : Nat → Point)
    (closest : Point → ℚ) : List Locator :=
  (sortedPairs selections pos closest).enum.map fun x =>
    Locator.mk ("locator_".toList ++ decDigits (x.1 + 1)) x.2.1 x.2.2

/-- The full trace of host-API calls of a successful `_extractCurve` run:
one `pointPosition` per selected vertex, then one `closestPoint` per
position, then the per-locator creation calls. -/
def extractTrace (selections : List Nat) (pos : Nat → Point)
    (closest : Point → ℚ) : List ApiCall :=
  selections.map ApiCall.pointPosition ++
    (selections.map pos).map ApiCall.closestPoint ++
    ((extractLocators selections pos closest).map fun l =>
      locatorCalls l.name l.pos l.uValue).flatten

/-- `CurveExtraction._extractCurve`: read each selected vertex's world
position, associate to each position the parameter returned by a single
`closestPoint` query, sort the pairs by parameter, and create
`locator_{i+1}` for the `i`-th pair, setting its motion-path `uValue` to
the pair's parameter.  Errors model `cmds.error` aborting the handler. -/
def extractCurve (targetCurve : Option Str) (selections : List Nat)
    (pos : Nat → Point) (closest : Point → ℚ) :
    Except Str (List Locator × List ApiCall) :=
  match targetCurve with
  | none => .error ('N' :: "o target curve selected.".toList)
  | some _ =>
    if selections.isEmpty then
      .error ('S' :: "elect at least one vertex.".toList)
    else
      if (selections.map pos).length < 2 then
        .error ('A' :: "t least two vertices are required.".toList)
      else
        .ok (extractLocators selections pos closest,
          extractTrace selections pos closest)

/-- No call in a locator block is a `closestPoint` query. -/
theorem locatorCalls_no_closest (name : Str) (p : Point) (u : ℚ) :
    (locatorCalls name p u).filter ApiCall.isClosestPoint = [] := by
  simp [locatorCalls, ApiCall.isClosestPoint]

/-- Members of `l.enum` have their second component in `l`. -/
theorem snd_mem_of_mem_enum {α : Type} {l : List α} {x : Nat × α}
    (h : x ∈ l.enum) : x.2 ∈ l := by
  rcases List.mk_mem_enum_iff_getElem?.mp (by exact h) with hget
  exact List.getElem?_mem hget

/-- `byUValue` is transitive. -/
theorem byUValue_trans (a b c : Point × ℚ) (hab : byUValue a b = true)
    (hbc : byUValue b c = true) : byUValue a c = true := by
  simp only [byUValue, decide_eq_true_eq] at *
  exact le_trans hab hbc

/-- `byUValue` is total. -/
theorem byUValue_total (a b : Point × ℚ) :
    (byUValue a b || byUValue b a) = true := by
  simp only [byUValue, Bool.or_eq_true, decide_eq_true_eq]
  exact le_total a.2 b.2

/-- The locators' parameter list is the sorted pairs' parameter list. -/
theorem extractLocators_map_uValue (selections : List Nat)
    (pos : Nat → Point) (closest : Point → ℚ) :
    (extractLocators selections pos closest).map (·.uValue) =
      (sortedPairs selections pos closest).map (·.2) := by
  unfold extractLocators
  rw [List.map_map]
  have : ((fun l : Locator => l.uValue) ∘ fun x : Nat × (Point × ℚ) =>
      Locator.mk ("locator_".toList ++ decDigits (x.1 + 1)) x.2.1 x.2.2)
      = (fun y : Point × ℚ => y.2) ∘ Prod.snd := rfl
  rw [this, ← List.map_map, List.enum_map_snd]

/-- The locators' position list is the sorted pairs' position list. -/
theorem extractLocators_map_pos (selections : List Nat)
    (pos : Nat → Point) (closest : Point → ℚ) :
    (extractLocators selections pos closest).map (·.pos) =
      (sortedPairs selections pos closest).map (·.1) := by
  unfold extractLocators
  rw [List.map_map]
  have : ((fun l : Locator => l.pos) ∘ fun x : Nat × (Point × ℚ) =>
      Locator.mk ("locator_".toList ++ decDigits (x.1 + 1)) x.2.1 x.2.2)
      = (fun y : Point × ℚ => y.1) ∘ Prod.snd := rfl
  rw [this, ← List.map_map, List.enum_map_snd]

/-- **C3.** With a target curve set and at least two selected vertices,
`_extractCurve` succeeds; the parameter of each vertex's world position
comes from exactly one `closestPoint` query against the target curve (the
trace's `closestPoint` calls are exactly one per selected vertex, in order,
and every locator's parameter is the oracle's answer for its position); the
tool creates one locator per vertex in nondecreasing order of parameter,
named `locator_1` through `locator_n` in that order, and sets each
locator's motion-path `uValue` to its point's parameter. -/
theorem extractCurve_single_query_sorted_locators (curve : Str)
    (selections : List Nat) (pos : Nat → Point) (closest : Point → ℚ)
    (h2 : 2 ≤ selections.length) :
    extractCurve (some curve) selections pos closest =
        .ok (extractLocators selections pos closest,
          extractTrace selections pos closest) ∧
      (extractTrace selections pos closest).filter ApiCall.isClosestPoint
        = selections.map (fun v => ApiCall.closestPoint (pos v)) ∧
      (extractLocators selections pos closest).map (·.name)
        = (List.range selections.length).map
            (fun i => "locator_".toList ++ decDigits (i + 1)) ∧
      ((extractLocators selections pos closest).map (·.uValue)).Pairwise
        (· ≤ ·) ∧
      (∀ l ∈ extractLocators selections pos closest,
        l.uValue = closest l.pos ∧
          ApiCall.setUValue l.name l.uValue ∈
            extractTrace selections pos closest) ∧
      ((extractLocators selections pos closest).map (·.pos)).Perm
        (selections.map pos) := by
  have hperm : (sortedPairs selections pos closest).Perm
      ((selections.map pos).map (fun p => (p, closest p))) :=
    List.mergeSort_perm _ byUValue
  have hlen : (sortedPairs selections pos closest).length
      = selections.length := by
    unfold sortedPairs
    rw [List.length_mergeSort, List.length_map, List.length_map]
  refine ⟨?_, ?_, ?_, ?_, ?_, ?_⟩
  · have hne : selections.isEmpty = false := by
      cases selections with
      | nil => simp at h2
      | cons a t => rfl
    have hlt : ¬ ((selections.map pos).length < 2) := by
      rw [List.length_map]
      omega
    simp only [extractCurve, hne, Bool.false_eq_true, if_false, hlt]
  · unfold extractTrace
    rw [List.filter_append, List.filter_append]
    rw [List.filter_map, List.filter_map]
    have h1 : (ApiCall.isClosestPoint ∘ ApiCall.pointPosition) = fun _ => false :=
      rfl
    have h2' : (ApiCall.isClosestPoint ∘ ApiCall.closestPoint) = fun _ => true :=
      rfl
    rw [h1, h2', List.filter_false, List.filter_true, List.filter_flatten]
    have h3 : ∀ bl ∈ (extractLocators selections pos closest).map
        (fun l => locatorCalls l.name l.pos l.uValue),
        bl.filter ApiCall.isClosestPoint = [] := by
      intro bl hbl
      rcases List.mem_map.mp hbl with ⟨l, _, rfl⟩
      exact locatorCalls_no_closest l.name l.pos l.uValue
    have h4 : ((extractLocators selections pos closest).map
        (fun l => locatorCalls l.name l.pos l.uValue)).map
          (List.filter ApiCall.isClosestPoint)
        = ((extractLocators selections pos closest).map
            (fun l => locatorCalls l.name l.pos l.uValue)).map
          (fun _ => []) := List.map_congr_left h3
    rw [h4]
    simp [List.map_map, Function.comp_def]
  · unfold extractLocators
    rw [List.map_map]
    have hcomp : ((fun l : Locator => l.name) ∘ fun x : Nat × (Point × ℚ) =>
        Locator.mk ("locator_".toList ++ decDigits (x.1 + 1)) x.2.1 x.2.2)
        = (fun i : Nat => "locator_".toList ++ decDigits (i + 1)) ∘
            Prod.fst := rfl
    rw [hcomp, ← List.map_map, List.enum_map_fst, hlen]
  · rw [extractLocators_map_uValue]
    have hsorted : (sortedPairs selections pos closest).Pairwise
        (fun a b => byUValue a b = true) :=
      List.sorted_mergeSort byUValue_trans byUValue_total _
    rw [List.pairwise_map]
    exact hsorted.imp fun h => by
      simpa [byUValue, decide_eq_true_eq] using h
  · intro l hl
    rcases List.mem_map.mp hl with ⟨x, hx, rfl⟩
    have hx2 : x.2 ∈ sortedPairs selections pos closest :=
      snd_mem_of_mem_enum hx
    have hx2' : x.2 ∈ (selections.map pos).map (fun p => (p, closest p)) :=
      hperm.subset hx2
    rcases List.mem_map.mp hx2' with ⟨p, _, hpe⟩
    constructor
    · show x.2.2 = closest x.2.1
      rw [← hpe]
    · unfold extractTrace
      refine List.mem_append.mpr (Or.inr (List.mem_flatten.mpr ?_))
      refine ⟨locatorCalls
        ("locator_".toList ++ decDigits (x.1 + 1)) x.2.1 x.2.2, ?_, ?_⟩
      · exact List.mem_map_of_mem _ hl
      · simp [locatorCalls]
  · rw [extractLocators_map_pos]
    have := hperm.map (fun y : Point × ℚ => y.1)
    rw [List.map_map] at this
    simpa using this

/-- Witness for C3 at a concrete run: two vertices on a parametrised
curve, the second projecting to the smaller parameter. -/
theorem extractCurve_single_query_sorted_locators_witness :
    2 ≤ [10, 11].length ∧
      extractCurve (some ['c']) [10, 11]
          (fun v => ((v : ℚ), 0, 0)) (fun p => p.1 / 2) =
        .ok (extractLocators [10, 11]
            (fun v => ((v : ℚ), 0, 0)) (fun p => p.1 / 2),
          extractTrace [10, 11]
            (fun v => ((v : ℚ), 0, 0)) (fun p => p.1 / 2)) :=
  ⟨by decide,
    (extractCurve_single_query_sorted_locators ['c'] [10, 11]
      (fun v => ((v : ℚ), 0, 0)) (fun p => p.1 / 2) (by decide)).1⟩

end CurveExtraction

namespace RigColor

/-!
## `src/pipeline/ala_rigColor.py`

`RigColor._categoriseJointsIntoLayers` (lines 357-412) with the regex
constants of lines 26-36, and `ColorBookmarkSaver.loadOrCreateColorBookmarks`
(lines 46-80).
-/

/-- `pat.isPrefixOf s || ...`: whether `pat` occurs as a contiguous
substring of `s` (the semantics of `re.search` for a literal pattern). -/
def isSubstring (pat : Str) : Str → Bool
  | [] => pat.isEmpty
  | c :: rest => pat.isPrefixOf (c :: rest) || isSubstring pat rest

/-- `LAYER_NAME_JNT_BS`. -/
def LAYER_NAME_JNT_BS : Str := ['B', 'S']

/-- `LAYER_NAME_JNT_FK`. -/
def LAYER_NAME_JNT_FK : Str := ['F', 'K']

/-- `LAYER_NAME_JNT_IK`. -/
def LAYER_NAME_JNT_IK : Str := ['I', 'K']

/-- `re.search(r"JNT[E]?_BS", s)`: an occurrence of `JNT_BS` or
`JNTE_BS`. -/
def matchBS (s : Str) : Bool :=
  isSubstring ("JNT_BS".toList) s || isSubstring ("JNTE_BS".toList) s

/-- `re.search(r"JNT[E]?_FK", s)`. -/
def matchFK (s : Str) : Bool :=
  isSubstring ("JNT_FK".toList) s || isSubstring ("JNTE_FK".toList) s

/-- `re.search(r"JNT[E]?_IK", s)`. -/
def matchIK (s : Str) : Bool :=
  isSubstring ("JNT_IK".toList) s || isSubstring ("JNTE_IK".toList) s

/-- `joint.split("|")[-1]`: the short name of a DAG path. -/
def shortNameOf (joint : Str) : Str := (joint.splitOn '|').getLastD []

/-- The display layer determined by the first matching pattern, in the
fixed precedence order of the `elif` chain of `categoriseJoint`. -/
def layerFor (short : Str) : Option Str :=
  if matchBS short then some LAYER_NAME_JNT_BS
  else if matchFK short then some LAYER_NAME_JNT_FK
  else if matchIK short then some LAYER_NAME_JNT_IK
  else none

/-- Scene-mutating (or warning) calls issued by
`_categoriseJointsIntoLayers`, in order. -/
inductive CatAction : Type where
  | createLayer (name : Str)
  | setLayerColor (name : Str) (color : List ℚ)
  | assign (joint : Str) (layerName : Str)
  | warn (obj : Str)
  deriving DecidableEq

/-- The Maya scene fragment the categorisation reads: which nodes exist,
which objects have `objectType == "joint"`, and each object's
`listRelatives(allDescendents=True)` result. -/
structure Scene where
  objects : List Str
  joints : List Str
  descendants : List (Str × List Str)
  deriving DecidableEq

/-- `cmds.objectType(o) == "joint"`. -/
def Scene.isJoint (sc : Scene) (o : Str) : Bool := sc.joints.contains o

/-- `cmds.objExists(o)`. -/
def Scene.objExists (sc : Scene) (o : Str) : Bool := sc.objects.contains o

/-- `cmds.listRelatives(o, allDescendents=True, fullPath=True)`: Maya
returns `None` (not an empty list) when there are no relatives. -/
def listRelativesAllDesc (sc : Scene) (o : Str) : Option (List Str) :=
  match sc.descendants.lookup o with
  | some l => if l.isEmpty then none else some l
  | none => none

/-- The inner `categoriseJoint(joint)` function: assign the joint to the
layer of the first matching pattern on its short name, or warn. -/
def categoriseJoint (joint : Str) : CatAction :=
  match layerFor (shortNameOf joint) with
  | some layer => CatAction.assign joint layer
  | none => CatAction.warn joint

/-- The layer-creation prelude: create each of the three layers when it
does not yet exist (setting its bookmarked color), then overwrite the
colors when requested. -/
def layerSetup (sc : Scene) (bookmark : Str → List ℚ) (overwrite : Bool) :
    List CatAction :=
  (if ¬ sc.objExists LAYER_NAME_JNT_BS then
    [CatAction.createLayer LAYER_NAME_JNT_BS,
      CatAction.setLayerColor LAYER_NAME_JNT_BS (bookmark LAYER_NAME_JNT_BS)]
  else []) ++
  (if ¬ sc.objExists LAYER_NAME_JNT_FK then
    [CatAction.createLayer LAYER_NAME_JNT_FK,
      CatAction.setLayerColor LAYER_NAME_JNT_FK (bookmark LAYER_NAME_JNT_FK)]
  else []) ++
  (if ¬ sc.objExists LAYER_NAME_JNT_IK then
    [CatAction.createLayer LAYER_NAME_JNT_IK,
      CatAction.setLayerColor LAYER_NAME_JNT_IK (bookmark LAYER_NAME_JNT_IK)]
  else []) ++
  (if overwrite then
    [CatAction.setLayerColor LAYER_NAME_JNT_BS (bookmark LAYER_NAME_JNT_BS),
      CatAction.setLayerColor LAYER_NAME_JNT_FK (bookmark LAYER_NAME_JNT_FK),
      CatAction.setLayerColor LAYER_NAME_JNT_IK (bookmark LAYER_NAME_JNT_IK)]
  else [])

/-- The per-object loop.  For each selected object, when the
apply-to-descendents option is set the code iterates
`cmds.listRelatives(object, allDescendents=True)` — which is `None` for an
object without descendants, so the iteration raises `TypeError`: the run
stops there (`false` flag) with the actions performed so far. -/
def processObjects (sc : Scene) (applyDesc : Bool) :
    List Str → List CatAction × Bool
  | [] => ([], true)
  | o :: rest =>
    if applyDesc then
      match listRelativesAllDesc sc o with
      | none => ([], false)
      | some ds =>
        let da := (ds.filter (sc.isJoint)).map categoriseJoint
        let sa := if sc.isJoint o then [categoriseJoint o] else []
        let r := processObjects sc applyDesc rest
        (da ++ sa ++ r.1, r.2)
    else
      let sa := if sc.isJoint o then [categoriseJoint o] else []
      let r := processObjects sc applyDesc rest
      (sa ++ r.1, r.2)

/-- `RigColor._categoriseJointsIntoLayers(applyDescendents,
overwriteLayerColor)` on a selection, with the layer bookmark bar's
`getColorFromLabel` as the `bookmark` oracle: empty selection warns and
returns; otherwise the layer setup runs, then each selected object is
processed.  The boolean is `false` when the run aborts with the
`TypeError` described at `processObjects`. -/
def categoriseJointsIntoLayers (sc : Scene) (sel : List Str)
    (applyDesc overwrite : Bool) (bookmark : Str → List ℚ) :
    List CatAction × Bool :=
  if sel.isEmpty then ([], true)
  else
    let r := processObjects sc applyDesc sel
    (layerSetup sc bookmark overwrite ++ r.1, r.2)

/-- The joints the claim calls "processed": each selected joint, plus each
descendant joint of a selected object when the option is set. -/
def processedJoints (sc : Scene) (applyDesc : Bool) (sel : List Str) :
    List Str :=
  (sel.map fun o =>
    (if applyDesc then
      ((listRelativesAllDesc sc o).getD []).filter (sc.isJoint)
    else []) ++
    (if sc.isJoint o then [o] else [])).flatten

/-- Unfolding `processObjects` on an empty selection. -/
theorem processObjects_nil (sc : Scene) (d : Bool) :
    processObjects sc d [] = ([], true) := rfl

/-- Unfolding `processObjects` when the first object has no descendants and
the option is set: the iteration over `None` raises and the run stops. -/
theorem processObjects_cons_none (sc : Scene) (o : Str) (rest : List Str)
    (hrel : listRelativesAllDesc sc o = none) :
    processObjects sc true (o :: rest) = ([], false) := by
  conv_lhs => rw [processObjects]
  rw [hrel]
  rfl

/-- Unfolding `processObjects` when the first object has descendants. -/
theorem processObjects_cons_some (sc : Scene) (o : Str) (rest : List Str)
    (ds : List Str) (hrel : listRelativesAllDesc sc o = some ds) :
    processObjects sc true (o :: rest) =
      ((ds.filter (sc.isJoint)).map categoriseJoint ++
        (if sc.isJoint o then [categoriseJoint o] else []) ++
        (processObjects sc true rest).1,
        (processObjects sc true rest).2) := by
  conv_lhs => rw [processObjects]
  rw [hrel]
  rfl

/-- Unfolding `processObjects` without the descendents option. -/
theorem processObjects_cons_false (sc : Scene) (o : Str) (rest : List Str) :
    processObjects sc false (o :: rest) =
      ((if sc.isJoint o then [categoriseJoint o] else []) ++
        (processObjects sc false rest).1,
        (processObjects sc false rest).2) := by
  conv_lhs => rw [processObjects]
  rfl

/-- Every action the per-object loop performs is a `categoriseJoint`
outcome. -/
theorem processObjects_actions (sc : Scene) (d : Bool) (sel : List Str) :
    ∀ a ∈ (processObjects sc d sel).1, ∃ j, a = categoriseJoint j := by
  induction sel with
  | nil => intro a ha; cases ha
  | cons o rest ih =>
    intro a ha
    have hsa : ∀ b ∈ (if sc.isJoint o then [categoriseJoint o] else []),
        ∃ j, b = categoriseJoint j := by
      intro b hb
      by_cases hj : sc.isJoint o
      · simp only [hj, if_true, List.mem_singleton] at hb
        exact ⟨o, hb⟩
      · simp only [hj, Bool.false_eq_true, if_false] at hb
        cases hb
    cases d with
    | true =>
      cases hrel : listRelativesAllDesc sc o with
      | none =>
        rw [processObjects_cons_none sc o rest hrel] at ha
        cases ha
      | some ds =>
        rw [processObjects_cons_some sc o rest ds hrel] at ha
        simp only [List.mem_append] at ha
        rcases ha with (ha | ha) | ha
        · rcases List.mem_map.mp ha with ⟨j, _, rfl⟩
          exact ⟨j, rfl⟩
        · exact hsa a ha
        · exact ih a ha
    | false =>
      rw [processObjects_cons_false sc o rest] at ha
      simp only [List.mem_append] at ha
      rcases ha with ha | ha
      · exact hsa a ha
      · exact ih a ha

/-- Unfolding `processedJoints` on a cons. -/
theorem processedJoints_cons (sc : Scene) (d : Bool) (o : Str)
    (rest : List Str) :
    processedJoints sc d (o :: rest) =
      ((if d then
        ((listRelativesAllDesc sc o).getD []).filter (sc.isJoint)
      else []) ++
        (if sc.isJoint o then [o] else [])) ++
        processedJoints sc d rest := rfl

/-- When no selected object triggers the `None` iteration, the loop
completes and performs `categoriseJoint` for every processed joint. -/
theorem processObjects_complete (sc : Scene) (d : Bool) (sel : List Str)
    (hdesc : d = true → ∀ o ∈ sel, listRelativesAllDesc sc o ≠ none) :
    (processObjects sc d sel).2 = true ∧
      ∀ j ∈ processedJoints sc d sel,
        categoriseJoint j ∈ (processObjects sc d sel).1 := by
  induction sel with
  | nil =>
    refine ⟨rfl, ?_⟩
    intro j hj
    simp [processedJoints] at hj
  | cons o rest ih =>
    have ihr := ih (fun hdt o ho => hdesc hdt o (List.mem_cons_of_mem _ ho))
    have hself : ∀ j, j ∈ (if sc.isJoint o then [o] else []) →
        categoriseJoint j ∈ (if sc.isJoint o then [categoriseJoint o]
          else []) := by
      intro j hj
      by_cases hjo : sc.isJoint o
      · simp only [hjo, if_true, List.mem_singleton] at hj ⊢
        rw [hj]
      · simp only [hjo, Bool.false_eq_true, if_false] at hj
        cases hj
    cases d with
    | true =>
      cases hrel : listRelativesAllDesc sc o with
      | none =>
        exact absurd hrel (hdesc rfl o (List.mem_cons_self o rest))
      | some ds =>
        rw [processObjects_cons_some sc o rest ds hrel]
        refine ⟨ihr.1, ?_⟩
        intro j hj
        rw [processedJoints_cons] at hj
        simp only [hrel, Option.getD_some, if_true, List.mem_append] at hj
        simp only [List.mem_append]
        rcases hj with (hj | hj) | hj
        · exact Or.inl (Or.inl (List.mem_map_of_mem _ hj))
        · exact Or.inl (Or.inr (hself j hj))
        · exact Or.inr (ihr.2 j hj)
    | false =>
      rw [processObjects_cons_false sc o rest]
      refine ⟨ihr.1, ?_⟩
      intro j hj
      rw [processedJoints_cons] at hj
      simp only [Bool.false_eq_true, if_false, List.nil_append,
        List.mem_append] at hj
      simp only [List.mem_append]
      rcases hj with hj | hj
      · exact Or.inl (hself j hj)
      · exact Or.inr (ihr.2 j hj)

/-- The layer-setup prelude contains no `assign` and no `warn` action. -/
theorem layerSetup_no_assign_warn (sc : Scene) (bookmark : Str → List ℚ)
    (ov : Bool) (j : Str) :
    (∀ L, CatAction.assign j L ∉ layerSetup sc bookmark ov) ∧
      CatAction.warn j ∉ layerSetup sc bookmark ov := by
  constructor
  · intro L
    unfold layerSetup
    split_ifs <;> simp
  · unfold layerSetup
    split_ifs <;> simp

/-- Unfolding the categorisation run on a non-empty selection. -/
theorem categorise_run (sc : Scene) (sel : List Str) (d ov : Bool)
    (bm : Str → List ℚ) (h : sel ≠ []) :
    categoriseJointsIntoLayers sc sel d ov bm =
      (layerSetup sc bm ov ++ (processObjects sc d sel).1,
        (processObjects sc d sel).2) := by
  cases sel with
  | nil => exact absurd rfl h
  | cons o rest => rfl

/-- A missing layer among the three is created (and its bookmark color set)
by the setup prelude. -/
theorem layerSetup_create_mem (sc : Scene) (bm : Str → List ℚ) (ov : Bool)
    (name : Str)
    (hn : name = LAYER_NAME_JNT_BS ∨ name = LAYER_NAME_JNT_FK ∨
      name = LAYER_NAME_JNT_IK)
    (hex : sc.objExists name = false) :
    CatAction.createLayer name ∈ layerSetup sc bm ov ∧
      CatAction.setLayerColor name (bm name) ∈ layerSetup sc bm ov := by
  unfold layerSetup
  rcases hn with rfl | rfl | rfl <;>
    simp [List.mem_append, hex]

/-- An already existing layer among the three is not re-created. -/
theorem layerSetup_create_not_mem (sc : Scene) (bm : Str → List ℚ)
    (ov : Bool) (name : Str)
    (hn : name = LAYER_NAME_JNT_BS ∨ name = LAYER_NAME_JNT_FK ∨
      name = LAYER_NAME_JNT_IK)
    (hex : sc.objExists name = true) :
    CatAction.createLayer name ∉ layerSetup sc bm ov := by
  have h1 : LAYER_NAME_JNT_BS ≠ LAYER_NAME_JNT_FK := by decide
  have h2 : LAYER_NAME_JNT_BS ≠ LAYER_NAME_JNT_IK := by decide
  have h3 : LAYER_NAME_JNT_FK ≠ LAYER_NAME_JNT_IK := by decide
  have h4 : LAYER_NAME_JNT_FK ≠ LAYER_NAME_JNT_BS := by decide
  have h5 : LAYER_NAME_JNT_IK ≠ LAYER_NAME_JNT_BS := by decide
  have h6 : LAYER_NAME_JNT_IK ≠ LAYER_NAME_JNT_FK := by decide
  unfold layerSetup
  rcases hn with rfl | rfl | rfl <;>
    · intro hmem
      split_ifs at hmem <;> simp_all

/-- **C5, amended.** For every run of the rig-color categorize operation on
a non-empty selection in which (when the apply-to-descendents option is
set) every selected object has at least one descendant, the run completes,
and every processed joint (each selected joint, plus every descendant joint
when the option is set) is assigned to exactly one display layer determined
by the first matching pattern in the fixed precedence order JNT[E]?_BS →
BS, JNT[E]?_FK → FK, JNT[E]?_IK → IK on its short name; a joint matching
none of the three patterns is assigned to no layer and produces a warning;
and each of the three layers is created with its bookmarked color when it
does not already exist. -/
theorem categoriseJoints_amended (sc : Scene) (sel : List Str)
    (applyDesc overwrite : Bool) (bookmark : Str → List ℚ)
    (hsel : sel ≠ [])
    (hdesc : applyDesc = true →
      ∀ o ∈ sel, listRelativesAllDesc sc o ≠ none) :
    (categoriseJointsIntoLayers sc sel applyDesc overwrite bookmark).2
      = true ∧
    (∀ j ∈ processedJoints sc applyDesc sel,
      (∀ L, layerFor (shortNameOf j) = some L →
        CatAction.assign j L ∈
          (categoriseJointsIntoLayers sc sel applyDesc overwrite
            bookmark).1 ∧
        ∀ L', CatAction.assign j L' ∈
            (categoriseJointsIntoLayers sc sel applyDesc overwrite
              bookmark).1 → L' = L) ∧
      (layerFor (shortNameOf j) = none →
        CatAction.warn j ∈
          (categoriseJointsIntoLayers sc sel applyDesc overwrite
            bookmark).1 ∧
        ∀ L', CatAction.assign j L' ∉
          (categoriseJointsIntoLayers sc sel applyDesc overwrite
            bookmark).1)) ∧
    (∀ name, (name = LAYER_NAME_JNT_BS ∨ name = LAYER_NAME_JNT_FK ∨
        name = LAYER_NAME_JNT_IK) →
      (sc.objExists name = false →
        CatAction.createLayer name ∈
          (categoriseJointsIntoLayers sc sel applyDesc overwrite
            bookmark).1 ∧
        CatAction.setLayerColor name (bookmark name) ∈
          (categoriseJointsIntoLayers sc sel applyDesc overwrite
            bookmark).1) ∧
      (sc.objExists name = true →
        CatAction.createLayer name ∉
          (categoriseJointsIntoLayers sc sel applyDesc overwrite
            bookmark).1)) := by
  rw [categorise_run sc sel applyDesc overwrite bookmark hsel]
  obtain ⟨hok, hcompl⟩ := processObjects_complete sc applyDesc sel hdesc
  have hchar : ∀ j L', CatAction.assign j L' ∈
      layerSetup sc bookmark overwrite ++
        (processObjects sc applyDesc sel).1 →
      layerFor (shortNameOf j) = some L' := by
    intro j L' hmem
    rcases List.mem_append.mp hmem with hmem | hmem
    · exact absurd hmem
        ((layerSetup_no_assign_warn sc bookmark overwrite j).1 L')
    · obtain ⟨j0, he⟩ := processObjects_actions sc applyDesc sel _ hmem
      unfold categoriseJoint at he
      cases hl : layerFor (shortNameOf j0) with
      | some L0 =>
        rw [hl] at he
        cases he
        exact hl
      | none =>
        rw [hl] at he
        cases he
  refine ⟨hok, ?_, ?_⟩
  · intro j hj
    have hcat := hcompl j hj
    constructor
    · intro L hL
      constructor
      · refine List.mem_append.mpr (Or.inr ?_)
        have hc : categoriseJoint j = CatAction.assign j L := by
          unfold categoriseJoint
          rw [hL]
        rwa [hc] at hcat
      · intro L' hL'
        have hs := hchar j L' hL'
        rw [hL] at hs
        exact (Option.some.injEq _ _ ▸ hs).symm
    · intro hnone
      constructor
      · refine List.mem_append.mpr (Or.inr ?_)
        have hc : categoriseJoint j = CatAction.warn j := by
          unfold categoriseJoint
          rw [hnone]
        rwa [hc] at hcat
      · intro L' hL'
        have hs := hchar j L' hL'
        rw [hnone] at hs
        cases hs
  · intro name hn
    constructor
    · intro hex
      have hmem := layerSetup_create_mem sc bookmark overwrite name hn hex
      exact ⟨List.mem_append.mpr (Or.inl hmem.1),
        List.mem_append.mpr (Or.inl hmem.2)⟩
    · intro hex hmem
      rcases List.mem_append.mp hmem with hmem | hmem
      · exact layerSetup_create_not_mem sc bookmark overwrite name hn hex
          hmem
      · obtain ⟨j0, he⟩ := processObjects_actions sc applyDesc sel _ hmem
        unfold categoriseJoint at he
        cases hl : layerFor (shortNameOf j0) with
        | some L0 => rw [hl] at he; cases he
        | none => rw [hl] at he; cases he

/-- **C5, counterexample.** With the apply-to-descendents option set and a
selection consisting of one leaf joint `|JNT_BS_a` (no descendants,
`cmds.listRelatives` returns `None`), the run aborts with a `TypeError`
while iterating `None` and the selected joint — although its short name
matches `JNT_BS` — is never assigned to any layer, contrary to the claim. -/
theorem categoriseJoints_claim_counterexample :
    ("|JNT_BS_a".toList ∈ processedJoints
        ⟨["|JNT_BS_a".toList], ["|JNT_BS_a".toList], []⟩ true
        ["|JNT_BS_a".toList]) ∧
    layerFor (shortNameOf ("|JNT_BS_a".toList)) = some LAYER_NAME_JNT_BS ∧
    (categoriseJointsIntoLayers
        ⟨["|JNT_BS_a".toList], ["|JNT_BS_a".toList], []⟩
        ["|JNT_BS_a".toList] true false (fun _ => [])).2 = false ∧
    CatAction.assign ("|JNT_BS_a".toList) LAYER_NAME_JNT_BS ∉
      (categoriseJointsIntoLayers
        ⟨["|JNT_BS_a".toList], ["|JNT_BS_a".toList], []⟩
        ["|JNT_BS_a".toList] true false (fun _ => [])).1 := by
  refine ⟨by decide, by decide, by decide, by decide⟩

/-- Witness for C5 (amended): a non-joint root with one descendant joint
`JNTE_FK`-named, processed via the descendents option. -/
theorem categoriseJoints_amended_witness :
    (["|ROOT".toList] ≠ ([] : List Str)) ∧
    ((true : Bool) = true → ∀ o ∈ ["|ROOT".toList],
      listRelativesAllDesc
        ⟨["|ROOT".toList, "|ROOT|JNTE_FK_arm".toList],
          ["|ROOT|JNTE_FK_arm".toList],
          [("|ROOT".toList, ["|ROOT|JNTE_FK_arm".toList])]⟩ o ≠ none) ∧
    (categoriseJointsIntoLayers
        ⟨["|ROOT".toList, "|ROOT|JNTE_FK_arm".toList],
          ["|ROOT|JNTE_FK_arm".toList],
          [("|ROOT".toList, ["|ROOT|JNTE_FK_arm".toList])]⟩
        ["|ROOT".toList] true false (fun _ => [])).2 = true :=
  ⟨by decide, by decide,
    (categoriseJoints_amended
      ⟨["|ROOT".toList, "|ROOT|JNTE_FK_arm".toList],
        ["|ROOT|JNTE_FK_arm".toList],
        [("|ROOT".toList, ["|ROOT|JNTE_FK_arm".toList])]⟩
      ["|ROOT".toList] true false (fun _ => [])
      (by decide) (by decide)).1⟩

/-- A parsed JSON value (`json.loads` result). -/
inductive JVal : Type where
  | null
  | bool (b : Bool)
  | num (q : ℚ)
  | str (s : Str)
  | arr (elems : List JVal)
  | obj (fields : List (Str × JVal))

/-- Whether a JSON value is an array (a Python list). -/
def JVal.isArr : JVal → Bool
  | JVal.arr _ => true
  | _ => false

/-- Python's `len()` on a parsed JSON value: defined for strings, lists and
dicts, a `TypeError` (`none`) otherwise. -/
def pyLen : JVal → Option Nat
  | JVal.str s => some s.length
  | JVal.arr l => some l.length
  | JVal.obj f => some f.length
  | _ => none

/-- The text stored in the bookmark attribute, abstracted by its JSON parse
outcome: either text `json.loads` rejects with `ValueError`, or text
parsing to a value. -/
inductive AttrText : Type where
  | invalid
  | parsed (v : JVal)

/-- The scene state `loadOrCreateColorBookmarks` reads and writes: whether
the data node exists, whether its string attribute exists, and the
attribute's stored text. -/
structure BookmarkScene where
  nodeExists : Bool
  attrExists : Bool
  attrText : AttrText

/-- `json.dumps(defaultColors)` stored and parsed back: the default colors
as a JSON array of arrays of numbers. -/
def colorsToJson (defaults : List (List ℚ)) : JVal :=
  JVal.arr (defaults.map (fun c => JVal.arr (c.map JVal.num)))

/-- `ColorBookmarkSaver.loadOrCreateColorBookmarks` (lines 46-80): create
the node and/or attribute with the defaults when missing; otherwise parse
the stored text (`ValueError` is caught and falls back to the defaults),
take `len()` of the parsed value (an uncaught `TypeError` — the `error`
result — when the value has no length), fall back to the defaults on a
length mismatch, and return the stored value otherwise. -/
def loadOrCreateColorBookmarks (sc : BookmarkScene)
    (defaults : List (List ℚ)) : Except Unit (JVal × BookmarkScene) :=
  if sc.nodeExists = false then
    .ok (colorsToJson defaults,
      ⟨true, true, AttrText.parsed (colorsToJson defaults)⟩)
  else if sc.attrExists = false then
    .ok (colorsToJson defaults,
      ⟨true, true, AttrText.parsed (colorsToJson defaults)⟩)
  else
    match sc.attrText with
    | AttrText.invalid =>
      .ok (colorsToJson defaults,
        ⟨true, true, AttrText.parsed (colorsToJson defaults)⟩)
    | AttrText.parsed v =>
      match pyLen v with
      | none => .error ()
      | some L =>
        if L ≠ defaults.length then
          .ok (colorsToJson defaults,
            ⟨true, true, AttrText.parsed (colorsToJson defaults)⟩)
        else .ok (v, sc)

/-- **C9, counterexample.** When the attribute holds the valid JSON text
`5`, `len(5)` raises an uncaught `TypeError` instead of falling back to the
default colors; when it holds the valid JSON text `"abc"` and three default
colors are given, the call returns the string `"abc"`, which is not a list
of color entries. -/
theorem loadOrCreate_claim_counterexample :
    loadOrCreateColorBookmarks ⟨true, true, AttrText.parsed (JVal.num 5)⟩
        [[0], [0], [0]] = .error () ∧
    loadOrCreateColorBookmarks
        ⟨true, true, AttrText.parsed (JVal.str ("abc".toList))⟩
        [[0], [0], [0]]
      = .ok (JVal.str ("abc".toList),
          ⟨true, true, AttrText.parsed (JVal.str ("abc".toList))⟩) ∧
    (JVal.str ("abc".toList)).isArr = false :=
  ⟨rfl, rfl, rfl⟩

/-- **C9, amended.** For every call with a non-empty list of default
colors: when the node or attribute is missing or the stored text is not
valid JSON, the call returns the defaults and stores them; when the stored
text parses to a value with a Python length equal to `len(defaultColors)`,
that value is returned as-is (it need not be a list of colors); a parsed
value with a different length is replaced by the defaults; a parsed value
with no length (number, boolean, null) raises an uncaught `TypeError`; and
whenever the call returns, the node and attribute exist, the attribute's
text parses to the returned value, and the returned value's length is
`len(defaultColors)`. -/
theorem loadOrCreate_amended (sc : BookmarkScene)
    (defaults : List (List ℚ)) (h : defaults ≠ []) :
    ((sc.nodeExists = false ∨ sc.attrExists = false ∨
        sc.attrText = AttrText.invalid) →
      loadOrCreateColorBookmarks sc defaults =
        .ok (colorsToJson defaults,
          ⟨true, true, AttrText.parsed (colorsToJson defaults)⟩)) ∧
    (∀ v, sc.nodeExists = true → sc.attrExists = true →
      sc.attrText = AttrText.parsed v →
      ((pyLen v = none →
          loadOrCreateColorBookmarks sc defaults = .error ()) ∧
        (∀ L, pyLen v = some L → L ≠ defaults.length →
          loadOrCreateColorBookmarks sc defaults =
            .ok (colorsToJson defaults,
              ⟨true, true, AttrText.parsed (colorsToJson defaults)⟩)) ∧
        (pyLen v = some defaults.length →
          loadOrCreateColorBookmarks sc defaults = .ok (v, sc)))) ∧
    (∀ r sc', loadOrCreateColorBookmarks sc defaults = .ok (r, sc') →
      pyLen r = some defaults.length ∧ sc'.nodeExists = true ∧
        sc'.attrExists = true ∧ sc'.attrText = AttrText.parsed r) := by
  have hfresh : pyLen (colorsToJson defaults) = some defaults.length := by
    simp [colorsToJson, pyLen]
  obtain ⟨ne, ae, at0⟩ := sc
  refine ⟨?_, ?_, ?_⟩
  · rintro (hc | hc | hc) <;> simp only at hc <;> subst hc
    · rfl
    · cases ne <;> rfl
    · cases ne with
      | false => rfl
      | true => cases ae <;> rfl
  · intro v hne hae hat
    simp only at hne hae hat
    subst hne; subst hae; subst hat
    refine ⟨?_, ?_, ?_⟩
    · intro hlen
      simp [loadOrCreateColorBookmarks, hlen]
    · intro L hlen hLne
      simp [loadOrCreateColorBookmarks, hlen, hLne]
    · intro hlen
      simp [loadOrCreateColorBookmarks, hlen]
  · intro r sc' hok
    unfold loadOrCreateColorBookmarks at hok
    cases ne with
    | false =>
      rw [if_pos rfl] at hok
      cases hok
      exact ⟨hfresh, rfl, rfl, rfl⟩
    | true =>
      rw [if_neg (by simp)] at hok
      cases ae with
      | false =>
        rw [if_pos rfl] at hok
        cases hok
        exact ⟨hfresh, rfl, rfl, rfl⟩
      | true =>
        rw [if_neg (by simp)] at hok
        cases at0 with
        | invalid =>
          cases hok
          exact ⟨hfresh, rfl, rfl, rfl⟩
        | parsed v =>
          cases hlen : pyLen v with
          | none =>
            simp only [hlen] at hok
            cases hok
          | some L =>
            simp only [hlen] at hok
            by_cases hL : L = defaults.length
            · rw [if_neg (not_not_intro hL)] at hok
              cases hok
              exact ⟨by rw [hlen, hL], rfl, rfl, rfl⟩
            · rw [if_pos hL] at hok
              cases hok
              exact ⟨hfresh, rfl, rfl, rfl⟩

/-- Witness for C9 (amended) at a concrete scene: the node does not exist
and one default color is given. -/
theorem loadOrCreate_amended_witness :
    ([[1, 0, 0]] ≠ ([] : List (List ℚ))) ∧
      loadOrCreateColorBookmarks ⟨false, false, AttrText.invalid⟩
          [[1, 0, 0]] =
        .ok (colorsToJson [[1, 0, 0]],
          ⟨true, true, AttrText.parsed (colorsToJson [[1, 0, 0]])⟩) :=
  ⟨by decide,
    (loadOrCreate_amended ⟨false, false, AttrText.invalid⟩ [[1, 0, 0]]
      (by decide)).1 (Or.inl rfl)⟩
end RigColor

namespace ImportAssets

/-!
## `src/pipeline/importassetscatalogue.py`

`import_assets` (lines 494-577) and `import_asset` (lines 380-491).  The
Houdini `AssetGalleryDataSource` is modelled as a database with a committed
item list and an optional open transaction; `addItem` outcomes and
`os.path.getctime` are oracles.
-/

/-- A resolved file path. -/
abbrev PathT := Str

/-- A database call performed during the import run. -/
inductive DbOp : Type where
  | startTxn
  | add (path : PathT)
  | endTxn (commit : Bool)
  deriving DecidableEq, Repr

/-- Whether an operation is an `endTransaction` call. -/
def isEndTxnOp : DbOp → Bool
  | DbOp.endTxn _ => true
  | _ => false

/-- The outcome of one `datasource.addItem` call: a truthy item id, a falsy
result, or an exception (caught by the surrounding `try`). -/
inductive AddRes : Type where
  | okId (id : Nat)
  | noId
  | raised
  deriving DecidableEq, Repr

/-- Oracles for a run: the outcome of the `k`-th `addItem` call, and
`os.path.getctime` (`none` models an `OSError`, which no `try` in
the importer's loop catches). -/
structure ImpEnv where
  addRes : Nat → AddRes
  ctime : PathT → Option Int

/-- An `AssetInfo` as far as the import phase reads it: the asset name, the
resolved primary file path, and the resolved variant paths with their
optional thumbnails. -/
structure AssetI where
  name : Str
  primary : PathT
  variants : List (PathT × Option PathT)

/-- The outcome of importing one asset: database calls performed, the
`(success, failed, skipped)` counts, the next `addItem` call index, and
whether an exception escaped. -/
structure IResult where
  ops : List DbOp
  succ : Nat
  failed : Nat
  skipped : Nat
  nextCall : Nat
  raised : Bool
  deriving DecidableEq, Repr

/-- The variant loop of `import_asset`: skip variants already in the
database, abort when `getctime` raises, count `addItem` outcomes. -/
def importVariants (env : ImpEnv) (existing : List PathT) :
    List (PathT × Option PathT) → Nat → IResult
  | [], k => ⟨[], 0, 0, 0, k, false⟩
  | (vpath, _) :: rest, k =>
    if existing.contains vpath then
      let r := importVariants env existing rest k
      ⟨r.ops, r.succ, r.failed, r.skipped + 1, r.nextCall, r.raised⟩
    else
      match env.ctime vpath with
      | none => ⟨[], 0, 0, 0, k, true⟩
      | some _ =>
        match env.addRes k with
        | AddRes.okId _ =>
          let r := importVariants env existing rest (k + 1)
          ⟨DbOp.add vpath :: r.ops, r.succ + 1, r.failed, r.skipped,
            r.nextCall, r.raised⟩
        | AddRes.noId =>
          let r := importVariants env existing rest (k + 1)
          ⟨r.ops, r.succ, r.failed + 1, r.skipped, r.nextCall, r.raised⟩
        | AddRes.raised =>
          let r := importVariants env existing rest (k + 1)
          ⟨r.ops, r.succ, r.failed + 1, r.skipped, r.nextCall, r.raised⟩

/-- `import_asset(datasource, asset_info, existing_paths, ...)`: an asset
whose resolved primary path is already in the database is skipped (only
`skipped` is incremented, no database call); otherwise `getctime` may
raise, `addItem` may fail or raise (counted as `failed`, early return), and
on success the variants are imported when requested. -/
def importAsset (env : ImpEnv) (existing : List PathT) (a : AssetI)
    (importVars : Bool) (k : Nat) : IResult :=
  if existing.contains a.primary then ⟨[], 0, 0, 1, k, false⟩
  else
    match env.ctime a.primary with
    | none => ⟨[], 0, 0, 0, k, true⟩
    | some _ =>
      match env.addRes k with
      | AddRes.okId _ =>
        if importVars && !a.variants.isEmpty then
          let r := importVariants env existing a.variants (k + 1)
          ⟨DbOp.add a.primary :: r.ops, r.succ + 1, r.failed, r.skipped,
            r.nextCall, r.raised⟩
        else ⟨[DbOp.add a.primary], 1, 0, 0, k + 1, false⟩
      | AddRes.noId => ⟨[], 0, 1, 0, k + 1, false⟩
      | AddRes.raised => ⟨[], 0, 1, 0, k + 1, false⟩

/-- The accumulated outcome of the per-asset loop. -/
structure LoopRes where
  ops : List DbOp
  succ : Nat
  failed : Nat
  skipped : Nat
  raised : Bool
  deriving DecidableEq, Repr

/-- The `for i, asset_info in enumerate(assets, 1)` loop: stats accumulate
per asset; an escaping exception stops the loop (that asset's counts are
lost, its database calls stand). -/
def importLoop (env : ImpEnv) (existing : List PathT) (importVars : Bool) :
    List AssetI → Nat → LoopRes
  | [], _ => ⟨[], 0, 0, 0, false⟩
  | a :: rest, k =>
    let r := importAsset env existing a importVars k
    if r.raised then ⟨r.ops, 0, 0, 0, true⟩
    else
      let rr := importLoop env existing importVars rest r.nextCall
      ⟨r.ops ++ rr.ops, r.succ + rr.succ, r.failed + rr.failed,
        r.skipped + rr.skipped, rr.raised⟩

/-- The import phase of `import_assets` (lines 538-560): with no assets the
transaction never starts; otherwise `startTransaction`, the loop, then one
`endTransaction(commit=True)` when the loop completed or
`endTransaction(commit=False)` in the `except` handler. -/
def import_assets (env : ImpEnv) (assets : List AssetI)
    (existing : List PathT) (importVars : Bool) : List DbOp × LoopRes :=
  if assets.isEmpty then ([], ⟨[], 0, 0, 0, false⟩)
  else
    let r := importLoop env existing importVars assets 0
    (DbOp.startTxn :: r.ops ++ [DbOp.endTxn (!r.raised)], r)

/-- The database: committed items and the optionally open transaction's
pending items. -/
structure Db where
  committed : List PathT
  txn : Option (List PathT)
  deriving DecidableEq, Repr

/-- The host database semantics: `startTransaction` opens an empty pending
list, `addItem` inside a transaction appends to it, `endTransaction`
commits or discards the pending items. -/
def applyOp (db : Db) : DbOp → Db
  | DbOp.startTxn => ⟨db.committed, some []⟩
  | DbOp.add p =>
    match db.txn with
    | some pend => ⟨db.committed, some (pend ++ [p])⟩
    | none => ⟨db.committed ++ [p], none⟩
  | DbOp.endTxn c =>
    match db.txn with
    | some pend =>
      ⟨if c then db.committed ++ pend else db.committed, none⟩
    | none => db

/-- Running a call sequence against the database. -/
def applyOps (db : Db) (ops : List DbOp) : Db := ops.foldl applyOp db

/-- Every database call of the variant loop is an `addItem`. -/
theorem importVariants_ops_adds (env : ImpEnv) (existing : List PathT) :
    ∀ vs k, ∀ op ∈ (importVariants env existing vs k).ops,
      ∃ p, op = DbOp.add p := by
  intro vs
  induction vs with
  | nil => intro k op hop; cases hop
  | cons v rest ih =>
    intro k op hop
    obtain ⟨vpath, vthumb⟩ := v
    unfold importVariants at hop
    by_cases hex : existing.contains vpath
    · rw [if_pos hex] at hop
      exact ih k op hop
    · rw [if_neg hex] at hop
      cases hct : env.ctime vpath with
      | none => rw [hct] at hop; cases hop
      | some t =>
        rw [hct] at hop
        cases har : env.addRes k with
        | okId i =>
          rw [har] at hop
          rcases List.mem_cons.mp hop with rfl | hop
          · exact ⟨vpath, rfl⟩
          · exact ih (k + 1) op hop
        | noId => rw [har] at hop; exact ih (k + 1) op hop
        | raised => rw [har] at hop; exact ih (k + 1) op hop

/-- Every database call of `import_asset` is an `addItem`. -/
theorem importAsset_ops_adds (env : ImpEnv) (existing : List PathT)
    (a : AssetI) (iv : Bool) (k : Nat) :
    ∀ op ∈ (importAsset env existing a iv k).ops, ∃ p, op = DbOp.add p := by
  intro op hop
  unfold importAsset at hop
  by_cases hex : existing.contains a.primary
  · rw [if_pos hex] at hop; cases hop
  · rw [if_neg hex] at hop
    cases hct : env.ctime a.primary with
    | none => rw [hct] at hop; cases hop
    | some t =>
      rw [hct] at hop
      cases har : env.addRes k with
      | okId i =>
        rw [har] at hop
        by_cases hv : (iv && !a.variants.isEmpty) = true
        · rw [if_pos hv] at hop
          rcases List.mem_cons.mp hop with rfl | hop
          · exact ⟨a.primary, rfl⟩
          · exact importVariants_ops_adds env existing a.variants (k + 1)
              op hop
        · rw [if_neg hv] at hop
          rcases List.mem_singleton.mp hop with rfl
          exact ⟨a.primary, rfl⟩
      | noId => rw [har] at hop; cases hop
      | raised => rw [har] at hop; cases hop

/-- Every database call of the per-asset loop is an `addItem`. -/
theorem importLoop_ops_adds (env : ImpEnv) (existing : List PathT)
    (iv : Bool) :
    ∀ assets k, ∀ op ∈ (importLoop env existing iv assets k).ops,
      ∃ p, op = DbOp.add p := by
  intro assets
  induction assets with
  | nil => intro k op hop; cases hop
  | cons a rest ih =>
    intro k op hop
    unfold importLoop at hop
    by_cases hr : (importAsset env existing a iv k).raised
    · rw [if_pos hr] at hop
      exact importAsset_ops_adds env existing a iv k op hop
    · rw [if_neg hr] at hop
      rcases List.mem_append.mp hop with hop | hop
      · exact importAsset_ops_adds env existing a iv k op hop
      · exact ih _ op hop

/-- Applying a sequence of `addItem` calls inside an open transaction never
changes the committed items and keeps the transaction open. -/
theorem applyOps_adds_committed (ops : List DbOp)
    (hadds : ∀ op ∈ ops, ∃ p, op = DbOp.add p) :
    ∀ db : Db, (∃ pend, db.txn = some pend) →
      (applyOps db ops).committed = db.committed ∧
        ∃ pend', (applyOps db ops).txn = some pend' := by
  induction ops with
  | nil => intro db h; exact ⟨rfl, h⟩
  | cons op rest ih =>
    intro db ⟨pend, hdb⟩
    obtain ⟨p, rfl⟩ := hadds op (List.mem_cons_self op rest)
    have hstep : applyOp db (DbOp.add p) =
        ⟨db.committed, some (pend ++ [p])⟩ := by
      unfold applyOp
      rw [hdb]
    have := ih (fun o ho => hadds o (List.mem_cons_of_mem _ ho))
      (applyOp db (DbOp.add p)) ⟨pend ++ [p], by rw [hstep]⟩
    unfold applyOps at this ⊢
    rw [List.foldl_cons]
    rw [hstep] at this ⊢
    exact this

/-- Closing a transaction without committing never changes the committed
items. -/
theorem applyOp_endTxn_false (d : Db) :
    (applyOp d (DbOp.endTxn false)).committed = d.committed := by
  obtain ⟨com, tx⟩ := d
  cases tx <;> rfl

/-- **C10.** For every run of `import_assets` that reaches the import phase
(a non-empty asset list), the transaction opened by `startTransaction` is
closed by exactly one `endTransaction` call — with `commit=True` when the
per-asset loop completes and `commit=False` when an exception escapes the
loop — so that when an exception escapes, the database's committed items
are unchanged; and an asset whose resolved primary path is already in the
database is skipped with no database call, only its skipped count
incremented. -/
theorem import_assets_transaction (env : ImpEnv) (assets : List AssetI)
    (existing : List PathT) (iv : Bool) (db0 : Db)
    (hne : assets ≠ []) (htxn : db0.txn = none) :
    ((import_assets env assets existing iv).1.filter isEndTxnOp
      = [DbOp.endTxn (!(import_assets env assets existing iv).2.raised)]) ∧
    ((import_assets env assets existing iv).2.raised = true →
      (applyOps db0 (import_assets env assets existing iv).1).committed
        = db0.committed) ∧
    (∀ a ∈ assets, ∀ k, a.primary ∈ existing →
      importAsset env existing a iv k = ⟨[], 0, 0, 1, k, false⟩) := by
  have hassets : assets.isEmpty = false := by
    cases assets with
    | nil => exact absurd rfl hne
    | cons a rest => rfl
  have hadds := importLoop_ops_adds env existing iv assets 0
  have h1 : (import_assets env assets existing iv).1 =
      DbOp.startTxn :: (importLoop env existing iv assets 0).ops ++
        [DbOp.endTxn (!(importLoop env existing iv assets 0).raised)] := by
    unfold import_assets
    rw [hassets]
    rfl
  have h2 : (import_assets env assets existing iv).2 =
      importLoop env existing iv assets 0 := by
    unfold import_assets
    rw [hassets]
    rfl
  rw [h1, h2]
  have hnil : (importLoop env existing iv assets 0).ops.filter isEndTxnOp
      = [] := by
    rw [List.filter_eq_nil_iff]
    intro op hop
    obtain ⟨p, rfl⟩ := hadds op hop
    simp [isEndTxnOp]
  refine ⟨?_, ?_, ?_⟩
  · simp [List.filter_cons, List.filter_append, hnil, isEndTxnOp]
  · intro hraised
    rw [hraised, Bool.not_true]
    unfold applyOps
    simp only [List.foldl_cons, List.foldl_append, List.foldl_nil]
    have hstart : applyOp db0 DbOp.startTxn = ⟨db0.committed, some []⟩ :=
      rfl
    rw [hstart]
    have hmid := applyOps_adds_committed
      (importLoop env existing iv assets 0).ops hadds
      ⟨db0.committed, some []⟩ ⟨[], rfl⟩
    unfold applyOps at hmid
    obtain ⟨hcom, pend', hpend⟩ := hmid
    exact (applyOp_endTxn_false _).trans hcom
  · intro a _ k hmem
    unfold importAsset
    rw [if_pos (List.elem_eq_true_of_mem hmem)]

/-- Witness for C10 at a concrete run: one fresh asset and one
already-present asset, `addItem` succeeding. -/
theorem import_assets_transaction_witness :
    ([⟨['a'], ['p'], []⟩, ⟨['b'], ['q'], []⟩] ≠ ([] : List AssetI)) ∧
      (⟨[['x']], none⟩ : Db).txn = none ∧
      importAsset ⟨fun _ => AddRes.okId 1, fun _ => some 0⟩ [['q']]
          ⟨['b'], ['q'], []⟩ true 1 = ⟨[], 0, 0, 1, 1, false⟩ := by
  have h := import_assets_transaction
    ⟨fun _ => AddRes.okId 1, fun _ => some 0⟩
    [⟨['a'], ['p'], []⟩, ⟨['b'], ['q'], []⟩] [['q']] true ⟨[['x']], none⟩
    (by simp) rfl
  exact ⟨by simp, rfl, h.2.2 ⟨['b'], ['q'], []⟩ (by simp) 1 (by simp)⟩

end ImportAssets

namespace AssetScan

/-!
## `src/pipeline/importassetscatalogue.py`, directory scan

`find_thumbnail` (lines 92-109), `scan_asset_directory` (lines 112-157) and
`scan_assets_directory` (lines 160-192).  A filesystem is a set of file
paths and directory paths; `Path.iterdir` is an enumeration oracle listing
each directory's child names in an arbitrary order.
-/

/-- Python string comparison (`list.sort` on names): lexicographic by code
point. -/
def lexLe : Str → Str → Bool
  | [], _ => true
  | _ :: _, [] => false
  | a :: as, b :: bs => if a < b then true else if b < a then false else lexLe as bs

/-- `lexLe` is total. -/
theorem lexLe_total : ∀ a b : Str, (lexLe a b || lexLe b a) = true := by
  intro a
  induction a with
  | nil => intro b; simp [lexLe]
  | cons x xs ih =>
    intro b
    cases b with
    | nil => simp [lexLe]
    | cons y ys =>
      by_cases h1 : x < y
      · simp [lexLe, h1]
      · by_cases h2 : y < x
        · simp [lexLe, h1, h2]
        · simp only [lexLe, if_neg h1, if_neg h2]
          exact ih ys

/-- `lexLe` is transitive. -/
theorem lexLe_trans : ∀ a b c : Str, lexLe a b = true → lexLe b c = true →
    lexLe a c = true := by
  intro a
  induction a with
  | nil => intro b c _ _; rfl
  | cons x xs ih =>
    intro b c hab hbc
    cases b with
    | nil => simp [lexLe] at hab
    | cons y ys =>
      cases c with
      | nil => simp [lexLe] at hbc
      | cons z zs =>
        simp only [lexLe] at hab hbc ⊢
        by_cases hxy : x < y
        · by_cases hyz : y < z
          · rw [if_pos (lt_trans hxy hyz)]
          · by_cases hzy : z < y
            · rw [if_neg hyz, if_pos hzy] at hbc
              exact absurd hbc (by decide)
            · have : y = z := le_antisymm (not_lt.mp hzy) (not_lt.mp hyz)
              subst this
              rw [if_pos hxy]
        · by_cases hyx : y < x
          · rw [if_neg hxy, if_pos hyx] at hab
            exact absurd hab (by decide)
          · have hxy' : x = y := le_antisymm (not_lt.mp hyx) (not_lt.mp hxy)
            subst hxy'
            by_cases hxz : x < z
            · rw [if_pos hxz]
            · by_cases hzx : z < x
              · rw [if_neg hxz, if_pos hzx] at hbc
                exact absurd hbc (by decide)
              · have : x = z := le_antisymm (not_lt.mp hzx) (not_lt.mp hxz)
                subst this
                simp only [if_neg hxz] at hab hbc ⊢
                exact ih ys zs hab hbc

/-- `lexLe` is antisymmetric. -/
theorem lexLe_antisymm : ∀ a b : Str, lexLe a b = true → lexLe b a = true →
    a = b := by
  intro a
  induction a with
  | nil =>
    intro b _ hba
    cases b with
    | nil => rfl
    | cons y ys => simp [lexLe] at hba
  | cons x xs ih =>
    intro b hab hba
    cases b with
    | nil => simp [lexLe] at hab
    | cons y ys =>
      simp only [lexLe] at hab hba
      by_cases hxy : x < y
      · rw [if_neg (lt_asymm hxy), if_pos hxy] at hba
        exact absurd hba (by decide)
      · by_cases hyx : y < x
        · rw [if_neg hxy, if_pos hyx] at hab
          exact absurd hab (by decide)
        · have : x = y := le_antisymm (not_lt.mp hyx) (not_lt.mp hxy)
          subst this
          simp only [if_neg hxy] at hab hba
          rw [ih ys hab hba]

/-- Python `str.lower()` on one character (ASCII, which is all the scan
compares). -/
def lowerChar (c : Char) : Char :=
  match c with
  | 'A' => 'a' | 'B' => 'b' | 'C' => 'c' | 'D' => 'd' | 'E' => 'e'
  | 'F' => 'f' | 'G' => 'g' | 'H' => 'h' | 'I' => 'i' | 'J' => 'j'
  | 'K' => 'k' | 'L' => 'l' | 'M' => 'm' | 'N' => 'n' | 'O' => 'o'
  | 'P' => 'p' | 'Q' => 'q' | 'R' => 'r' | 'S' => 's' | 'T' => 't'
  | 'U' => 'u' | 'V' => 'v' | 'W' => 'w' | 'X' => 'x' | 'Y' => 'y'
  | 'Z' => 'z' | _ => c

/-- Python `str.lower()`. -/
def lowerStr (s : Str) : Str := s.map lowerChar

/-- Lowercasing does not create or destroy dots. -/
theorem lowerChar_eq_dot (c : Char) : lowerChar c = '.' ↔ c = '.' := by
  unfold lowerChar
  split <;> first | rfl | decide

/-- `name.rfind('.')` as pathlib uses it: the index of the last dot, when
one exists. -/
def lastDot : Str → Option Nat
  | [] => none
  | c :: t =>
    match lastDot t with
    | some i => some (i + 1)
    | none => if c = '.' then some 0 else none

/-- `PurePath.stem`/`PurePath.suffix`: split the name at the last dot when
`0 < i < len(name) - 1`, otherwise the suffix is empty. -/
def splitExt (l : Str) : Str × Str :=
  match lastDot l with
  | some i => if 0 < i ∧ i < l.length - 1 then (l.take i, l.drop i) else (l, [])
  | none => (l, [])

/-- `PurePath.stem`. -/
def stemOf (l : Str) : Str := (splitExt l).1

/-- `PurePath.suffix`. -/
def suffixOf (l : Str) : Str := (splitExt l).2

/-- The stem and suffix recombine to the name. -/
theorem stemOf_append_suffixOf (l : Str) : stemOf l ++ suffixOf l = l := by
  unfold stemOf suffixOf splitExt
  cases hld : lastDot l with
  | none => simp
  | some i =>
    simp only []
    by_cases h : 0 < i ∧ i < l.length - 1
    · rw [if_pos h]
      exact List.take_append_drop i l
    · rw [if_neg h]
      simp

/-- The last dot of `w ++ t` when `t` contains a dot. -/
theorem lastDot_append_some (w t : Str) (j : Nat) (h : lastDot t = some j) :
    lastDot (w ++ t) = some (w.length + j) := by
  induction w with
  | nil => simpa using h
  | cons c w' ih =>
    show lastDot (c :: (w' ++ t)) = _
    unfold lastDot
    rw [ih]
    simp only [List.length_cons]
    congr 1
    omega

/-- The last dot of `w ++ t` when `t` contains none. -/
theorem lastDot_append_none (w t : Str) (h : lastDot t = none) :
    lastDot (w ++ t) = lastDot w := by
  induction w with
  | nil => simpa using h
  | cons c w' ih =>
    show lastDot (c :: (w' ++ t)) = lastDot (c :: w')
    unfold lastDot
    rw [ih]

/-- Splitting `w ++ ext` for a nonempty `w` and an extension of length at
least 2 whose only dot is its first character. -/
theorem splitExt_append_ext (w ext : Str) (hw : w ≠ [])
    (h0 : lastDot ext = some 0) (hlen : 2 ≤ ext.length) :
    splitExt (w ++ ext) = (w, ext) := by
  have heq : lastDot (w ++ ext) = some w.length := by
    simpa using lastDot_append_some w ext 0 h0
  have hwpos : 0 < w.length := List.length_pos.mpr hw
  have hcond : 0 < w.length ∧ w.length < (w ++ ext).length - 1 := by
    constructor
    · omega
    · rw [List.length_append]
      omega
  unfold splitExt
  simp only [heq]
  rw [if_pos hcond, List.take_left, List.drop_left]

/-- `lastDot` is unchanged by lowercasing. -/
theorem lastDot_lower (l : Str) : lastDot (lowerStr l) = lastDot l := by
  induction l with
  | nil => rfl
  | cons c t ih =>
    show lastDot (lowerChar c :: lowerStr t) = _
    unfold lastDot
    rw [ih]
    cases lastDot t with
    | some i => rfl
    | none => exact if_congr (lowerChar_eq_dot c) rfl rfl

/-- `splitExt` commutes with lowercasing. -/
theorem splitExt_lower (l : Str) :
    splitExt (lowerStr l) = (lowerStr (stemOf l), lowerStr (suffixOf l)) := by
  unfold stemOf suffixOf splitExt
  rw [lastDot_lower]
  cases hld : lastDot l with
  | none =>
    simp only [hld]
    rfl
  | some i =>
    simp only [hld]
    have hlen : (lowerStr l).length = l.length := List.length_map l lowerChar
    by_cases h : 0 < i ∧ i < l.length - 1
    · rw [if_pos (by rw [hlen]; exact h), if_pos h]
      unfold lowerStr
      rw [List.map_take, List.map_drop]
    · rw [if_neg (by rw [hlen]; exact h), if_neg h]
      rfl

/-- A filesystem path: the list of component names from the scanned root. -/
abbrev FPath := List Str

/-- A filesystem: which paths are regular files and which are
directories. -/
structure FS where
  files : List FPath
  dirs : List FPath
  deriving DecidableEq

/-- `Path.is_file()`. -/
def FS.isFile (fs : FS) (p : FPath) : Bool := fs.files.contains p

/-- `Path.is_dir()`. -/
def FS.isDir (fs : FS) (p : FPath) : Bool := fs.dirs.contains p

/-- `Path.exists()`. -/
def FS.pathExists (fs : FS) (p : FPath) : Bool := fs.isFile p || fs.isDir p

/-- A `Path.iterdir` oracle: the child names of each directory, in the
order the filesystem enumerates them. -/
abbrev Enum := FPath → List Str

/-- A valid enumeration lists, without repetition, exactly the names whose
path exists under the queried directory. -/
def ValidEnum (fs : FS) (e : Enum) : Prop :=
  ∀ p : FPath, (e p).Nodup ∧
    ∀ n : Str, n ∈ e p ↔ fs.pathExists (p ++ [n]) = true

/-- Well-formed filesystem: every path component is a nonempty name. -/
def WFNames (fs : FS) : Prop :=
  ∀ q ∈ fs.files ++ fs.dirs, ∀ n ∈ q, n ≠ ([] : Str)

/-- One canonical enumeration: the deduplicated child names read off the
filesystem's path lists. -/
def childNames (fs : FS) (p : FPath) : List Str :=
  ((fs.files ++ fs.dirs).filterMap (fun q =>
    match q.getLast? with
    | some n => if q.dropLast = p then some n else none
    | none => none)).dedup

/-- A path equals `p ++ [n]` exactly when its last component is `n` over
prefix `p`. -/
theorem eq_append_singleton_iff (q p : FPath) (n : Str) :
    (q.getLast? = some n ∧ q.dropLast = p) ↔ q = p ++ [n] := by
  constructor
  · rintro ⟨hl, hd⟩
    have hne : q ≠ [] := by
      intro h
      rw [h] at hl
      cases hl
    have hgl : q.getLast hne = n := by
      rw [List.getLast?_eq_getLast q hne] at hl
      exact Option.some.inj hl
    have hq' := List.dropLast_append_getLast hne
    rw [hd, hgl] at hq'
    exact hq'.symm
  · rintro rfl
    exact ⟨List.getLast?_concat p, List.dropLast_concat⟩

/-- `childNames` is a valid enumeration. -/
theorem validEnum_childNames (fs : FS) : ValidEnum fs (childNames fs) := by
  intro p
  refine ⟨List.nodup_dedup _, ?_⟩
  intro n
  unfold childNames
  rw [List.mem_dedup, List.mem_filterMap]
  constructor
  · rintro ⟨q, hq, hmatch⟩
    cases hl : q.getLast? with
    | none => rw [hl] at hmatch; cases hmatch
    | some m =>
      rw [hl] at hmatch
      simp only [] at hmatch
      by_cases hd : q.dropLast = p
      · rw [if_pos hd] at hmatch
        cases hmatch
        have : q = p ++ [n] := (eq_append_singleton_iff q p n).mp ⟨hl, hd⟩
        subst this
        unfold FS.pathExists FS.isFile FS.isDir
        rcases List.mem_append.mp hq with hq | hq
        · simp [hq]
        · simp [hq]
      · rw [if_neg hd] at hmatch
        cases hmatch
  · intro hex
    refine ⟨p ++ [n], ?_, ?_⟩
    · unfold FS.pathExists FS.isFile FS.isDir at hex
      simp only [Bool.or_eq_true] at hex
      rcases hex with hex | hex
      · exact List.mem_append.mpr (Or.inl (by simpa using hex))
      · exact List.mem_append.mpr (Or.inr (by simpa using hex))
    · simp [List.getLast?_concat, List.dropLast_concat]

/-- Reversing each directory's listing is still a valid enumeration. -/
theorem validEnum_reverse (fs : FS) (e : Enum) (hv : ValidEnum fs e) :
    ValidEnum fs (fun p => (e p).reverse) := by
  intro p
  refine ⟨List.nodup_reverse.mpr (hv p).1, ?_⟩
  intro n
  rw [List.mem_reverse]
  exact (hv p).2 n

/-- `USD_EXTENSIONS = {'.usd', '.usda', '.usdc'}` (a Python set; the model
fixes one iteration order). -/
def USD_EXTENSIONS : List Str :=
  [".usd".toList, ".usda".toList, ".usdc".toList]

/-- `THUMBNAIL_EXTENSIONS = {'.jpg', '.png', '.jpeg'}`. -/
def THUMBNAIL_EXTENSIONS : List Str :=
  [".jpg".toList, ".png".toList, ".jpeg".toList]

/-- `find_thumbnail(directory, base_name, case_insensitive)` (lines
92-109): try the exact candidates `base_name + ext` first; in
case-insensitive mode fall back to the first directory entry whose
lowercased name equals a lowercased candidate. -/
def find_thumbnail (fs : FS) (e : Enum) (dir : FPath) (base : Str)
    (ci : Bool) : Option Str :=
  match THUMBNAIL_EXTENSIONS.findSome? (fun ext =>
      if fs.pathExists (dir ++ [base ++ ext]) &&
          fs.isFile (dir ++ [base ++ ext]) then some (base ++ ext)
      else none) with
  | some f => some f
  | none =>
    if ci then
      (e dir).find? (fun f =>
        fs.isFile (dir ++ [f]) &&
          THUMBNAIL_EXTENSIONS.any
            (fun ext => lowerStr f = lowerStr (base ++ ext)))
    else none

/-- The record built by `scan_asset_directory` (the `AssetInfo` fields the
claims are about): the asset name, the chosen primary file name, the chosen
asset thumbnail, and the variant files each paired with its thumbnail. -/
structure AssetRec where
  name : Str
  primary_file : Str
  thumbnail : Option Str
  variants : List (Str × Option Str)
  deriving DecidableEq, Repr

/-- The primary-file search of `scan_asset_directory` (lines 120-135):
exact candidates `asset_name + ext` first, then (case-insensitive mode
only) the first directory entry whose lowercased name matches. -/
def findPrimary (fs : FS) (e : Enum) (asset_dir : FPath)
    (asset_name : Str) (ci : Bool) : Option Str :=
  match USD_EXTENSIONS.findSome? (fun ext =>
      if fs.pathExists (asset_dir ++ [asset_name ++ ext]) &&
          fs.isFile (asset_dir ++ [asset_name ++ ext]) then
        some (asset_name ++ ext)
      else none) with
  | some f => some f
  | none =>
    if ci then
      (e asset_dir).find? (fun f =>
        fs.isFile (asset_dir ++ [f]) &&
          USD_EXTENSIONS.any
            (fun ext => lowerStr f = lowerStr (asset_name ++ ext)))
    else none

/-- The variants block of `scan_asset_directory` (lines 139-151): when the
`variants/` subdirectory exists, each of its files with a USD extension,
in enumeration order, paired with its `<variantname>_thumbnail`. -/
def scanVariants (fs : FS) (e : Enum) (asset_dir : FPath) (ci : Bool) :
    List (Str × Option Str) :=
  if fs.pathExists (asset_dir ++ ["variants".toList]) &&
      fs.isDir (asset_dir ++ ["variants".toList]) then
    (e (asset_dir ++ ["variants".toList])).filterMap (fun f =>
      if fs.isFile (asset_dir ++ ["variants".toList] ++ [f]) &&
          USD_EXTENSIONS.contains (suffixOf f) then
        some (f, find_thumbnail fs e (asset_dir ++ ["variants".toList])
          (stemOf f ++ "_thumbnail".toList) ci)
      else none)
  else []

/-- `scan_asset_directory(asset_dir, case_insensitive)` (lines 112-157):
`None` without a primary file; otherwise the asset thumbnail and the
variants of the `variants/` subdirectory (files with a USD extension, each
paired with its `<variantname>_thumbnail` image). -/
def scan_asset_directory (fs : FS) (e : Enum) (parent : FPath)
    (asset_name : Str) (ci : Bool) : Option AssetRec :=
  if ¬ fs.isDir (parent ++ [asset_name]) then none
  else
    match findPrimary fs e (parent ++ [asset_name]) asset_name ci with
    | none => none
    | some pf =>
      some
        { name := asset_name
          primary_file := pf
          thumbnail := find_thumbnail fs e (parent ++ [asset_name])
            ("thumbnail".toList) ci
          variants := scanVariants fs e (parent ++ [asset_name]) ci }

/-- `scan_assets_directory(assets_dir, case_insensitive)` (lines 160-192):
scan each immediate subdirectory and sort the records by asset name
(Python's stable `list.sort`). -/
def scan_assets_directory (fs : FS) (e : Enum) (root : FPath) (ci : Bool) :
    List AssetRec :=
  if ¬ fs.pathExists root then []
  else if ¬ fs.isDir root then []
  else
    ((e root).filterMap (fun n =>
      if fs.isDir (root ++ [n]) then scan_asset_directory fs e root n ci
      else none)).mergeSort (fun a b => lexLe a.name b.name)

/-- The claim's thumbnail-name matcher: `base + ext` for an image
extension, compared case-insensitively when requested. -/
def matchesThumbName (base f : Str) (ci : Bool) : Bool :=
  if ci then
    THUMBNAIL_EXTENSIONS.any (fun ext => lowerStr f = lowerStr (base ++ ext))
  else THUMBNAIL_EXTENSIONS.any (fun ext => f = base ++ ext)

/-- The claim's primary-file matcher: the file's stem equals the asset
name and its extension is a USD extension, both case-insensitively when
requested. -/
def matchesPrimaryName (asset f : Str) (ci : Bool) : Bool :=
  if ci then
    (lowerStr (stemOf f) = lowerStr asset) &&
      USD_EXTENSIONS.contains (lowerStr (suffixOf f))
  else (stemOf f = asset) && USD_EXTENSIONS.contains (suffixOf f)

/-- The three USD extensions start with their only dot, have length at
least 2, and are lowercase. -/
theorem usd_ext_facts : ∀ ext ∈ USD_EXTENSIONS,
    lastDot ext = some 0 ∧ 2 ≤ ext.length ∧ lowerStr ext = ext := by decide

/-- A file name lowercase-matches `asset ++ ext` for some USD extension
exactly when its stem and extension match the claim's case-insensitive
condition (for a nonempty asset name). -/
theorem lower_match_iff_matchesPrimary (asset f : Str) (hne : asset ≠ []) :
    USD_EXTENSIONS.any (fun ext => lowerStr f = lowerStr (asset ++ ext))
      = matchesPrimaryName asset f true := by
  unfold matchesPrimaryName
  rw [if_pos rfl]
  rcases hany : USD_EXTENSIONS.any
      (fun ext => lowerStr f = lowerStr (asset ++ ext)) with _ | _
  · rw [eq_comm, Bool.and_eq_false_iff]
    by_cases hstem : lowerStr (stemOf f) = lowerStr asset
    · right
      rcases hcon : USD_EXTENSIONS.contains (lowerStr (suffixOf f))
        with _ | _
      · rfl
      · exfalso
        have hmem : lowerStr (suffixOf f) ∈ USD_EXTENSIONS := by
          simpa using hcon
        have hext := usd_ext_facts _ hmem
        have hf : lowerStr f = lowerStr asset ++ lowerStr (suffixOf f) := by
          conv_lhs => rw [← stemOf_append_suffixOf f]
          unfold lowerStr
          rw [List.map_append]
          rw [show List.map lowerChar (stemOf f) = lowerStr (stemOf f)
            from rfl, hstem]
          rfl
        have : lowerStr f = lowerStr (asset ++ lowerStr (suffixOf f)) := by
          rw [hf]
          unfold lowerStr
          rw [List.map_append]
          congr 1
          exact (hext.2.2).symm
        have : USD_EXTENSIONS.any
            (fun ext => lowerStr f = lowerStr (asset ++ ext)) = true := by
          rw [List.any_eq_true]
          exact ⟨lowerStr (suffixOf f), hmem, by simpa using this⟩
        rw [hany] at this
        cases this
    · left
      simpa using hstem
  · rw [List.any_eq_true] at hany
    obtain ⟨ext, hmem, heq⟩ := hany
    have hext := usd_ext_facts _ hmem
    have heq' : lowerStr f = lowerStr asset ++ ext := by
      have : lowerStr (asset ++ ext) = lowerStr asset ++ ext := by
        unfold lowerStr
        rw [List.map_append]
        congr 1
        exact hext.2.2
      rw [← this]
      simpa using heq
    have hsplit : splitExt (lowerStr f) = (lowerStr asset, ext) := by
      rw [heq']
      exact splitExt_append_ext (lowerStr asset) ext
        (by simpa [lowerStr] using hne) hext.1 hext.2.1
    rw [splitExt_lower] at hsplit
    have h1 : lowerStr (stemOf f) = lowerStr asset :=
      congrArg Prod.fst hsplit
    have h2 : lowerStr (suffixOf f) = ext := congrArg Prod.snd hsplit
    rw [eq_comm, Bool.and_eq_true]
    constructor
    · simpa using h1
    · rw [h2]
      simpa using hmem

/-- A file name is exactly `asset ++ ext` for some USD extension exactly
when its stem is the asset name and its extension a USD extension (for a
nonempty asset name). -/
theorem exact_match_iff_matchesPrimary (asset f : Str) (hne : asset ≠ []) :
    USD_EXTENSIONS.any (fun ext => f = asset ++ ext)
      = matchesPrimaryName asset f false := by
  unfold matchesPrimaryName
  rw [if_neg (by simp)]
  rcases hany : USD_EXTENSIONS.any (fun ext => f = asset ++ ext)
    with _ | _
  · rw [eq_comm, Bool.and_eq_false_iff]
    by_cases hstem : stemOf f = asset
    · right
      rcases hcon : USD_EXTENSIONS.contains (suffixOf f) with _ | _
      · rfl
      · exfalso
        have hmem : suffixOf f ∈ USD_EXTENSIONS := by simpa using hcon
        have : USD_EXTENSIONS.any (fun ext => f = asset ++ ext)
            = true := by
          rw [List.any_eq_true]
          refine ⟨suffixOf f, hmem, ?_⟩
          simp only [decide_eq_true_eq]
          rw [← hstem]
          exact (stemOf_append_suffixOf f).symm
        rw [hany] at this
        cases this
    · left
      simpa using hstem
  · rw [List.any_eq_true] at hany
    obtain ⟨ext, hmem, heq⟩ := hany
    have hext := usd_ext_facts _ hmem
    simp only [decide_eq_true_eq] at heq
    subst heq
    have hsplit := splitExt_append_ext asset ext hne hext.1 hext.2.1
    rw [eq_comm, Bool.and_eq_true]
    constructor
    · simp [stemOf, hsplit]
    · have : suffixOf (asset ++ ext) = ext := by simp [suffixOf, hsplit]
      rw [this]
      simpa using hmem

/-- A found thumbnail is a real file whose name matches the claim's
thumbnail pattern. -/
theorem find_thumbnail_some (fs : FS) (e : Enum) (dir : FPath)
    (base : Str) (ci : Bool) (t : Str)
    (h : find_thumbnail fs e dir base ci = some t) :
    fs.isFile (dir ++ [t]) = true ∧ matchesThumbName base t ci = true := by
  unfold find_thumbnail at h
  cases hfs : THUMBNAIL_EXTENSIONS.findSome? (fun ext =>
      if fs.pathExists (dir ++ [base ++ ext]) &&
          fs.isFile (dir ++ [base ++ ext]) then some (base ++ ext)
      else none) with
  | some g =>
    rw [hfs] at h
    cases h
    obtain ⟨ext, hmem, hext⟩ := List.exists_of_findSome?_eq_some hfs
    by_cases hc : (fs.pathExists (dir ++ [base ++ ext]) &&
        fs.isFile (dir ++ [base ++ ext])) = true
    · rw [if_pos hc] at hext
      cases hext
      rw [Bool.and_eq_true] at hc
      refine ⟨hc.2, ?_⟩
      unfold matchesThumbName
      cases ci
      · rw [if_neg (by simp), List.any_eq_true]
        exact ⟨ext, hmem, by simp⟩
      · rw [if_pos rfl, List.any_eq_true]
        exact ⟨ext, hmem, by simp⟩
    · rw [if_neg hc] at hext
      cases hext
  | none =>
    rw [hfs] at h
    cases ci with
    | false => simp at h
    | true =>
      simp only [if_pos rfl] at h
      have hp := List.find?_some h
      rw [Bool.and_eq_true] at hp
      refine ⟨hp.1, ?_⟩
      unfold matchesThumbName
      rw [if_pos rfl]
      exact hp.2

/-- When no thumbnail is found, no directory entry is a matching thumbnail
file. -/
theorem find_thumbnail_none (fs : FS) (e : Enum) (dir : FPath)
    (base : Str) (ci : Bool)
    (h : find_thumbnail fs e dir base ci = none) :
    ∀ f ∈ e dir, ¬(fs.isFile (dir ++ [f]) = true ∧
      matchesThumbName base f ci = true) := by
  intro f hf ⟨hfile, hmatch⟩
  unfold find_thumbnail at h
  cases hfs : THUMBNAIL_EXTENSIONS.findSome? (fun ext =>
      if fs.pathExists (dir ++ [base ++ ext]) &&
          fs.isFile (dir ++ [base ++ ext]) then some (base ++ ext)
      else none) with
  | some g => rw [hfs] at h; cases h
  | none =>
    rw [hfs] at h
    unfold matchesThumbName at hmatch
    cases ci with
    | true =>
      rw [if_pos rfl] at h hmatch
      have := List.find?_eq_none.mp h f hf
      rw [Bool.and_eq_true] at this
      exact this ⟨hfile, hmatch⟩
    | false =>
      rw [if_neg (by simp)] at hmatch
      rw [List.any_eq_true] at hmatch
      obtain ⟨ext, hmem, heq⟩ := hmatch
      simp only [decide_eq_true_eq] at heq
      subst heq
      have hnone := List.findSome?_eq_none.mp hfs ext hmem
      by_cases hc : (fs.pathExists (dir ++ [base ++ ext]) &&
          fs.isFile (dir ++ [base ++ ext])) = true
      · rw [if_pos hc] at hnone
        cases hnone
      · apply hc
        rw [Bool.and_eq_true]
        refine ⟨?_, hfile⟩
        unfold FS.pathExists
        rw [hfile]
        simp

/-- The claim's qualification predicate: the directory contains a file
whose name matches the primary pattern for the asset. -/
def HasPrimarySpec (fs : FS) (e : Enum) (asset_dir : FPath)
    (asset : Str) (ci : Bool) : Bool :=
  (e asset_dir).any (fun f =>
    fs.isFile (asset_dir ++ [f]) && matchesPrimaryName asset f ci)

/-- A found primary is a real file matching the claim's primary pattern. -/
theorem findPrimary_some (fs : FS) (e : Enum) (asset_dir : FPath)
    (asset : Str) (ci : Bool) (hne : asset ≠ []) (pf : Str)
    (h : findPrimary fs e asset_dir asset ci = some pf) :
    fs.isFile (asset_dir ++ [pf]) = true ∧
      matchesPrimaryName asset pf ci = true := by
  unfold findPrimary at h
  cases hfs : USD_EXTENSIONS.findSome? (fun ext =>
      if fs.pathExists (asset_dir ++ [asset ++ ext]) &&
          fs.isFile (asset_dir ++ [asset ++ ext]) then some (asset ++ ext)
      else none) with
  | some g =>
    rw [hfs] at h
    cases h
    obtain ⟨ext, hmem, hext⟩ := List.exists_of_findSome?_eq_some hfs
    by_cases hc : (fs.pathExists (asset_dir ++ [asset ++ ext]) &&
        fs.isFile (asset_dir ++ [asset ++ ext])) = true
    · rw [if_pos hc] at hext
      cases hext
      rw [Bool.and_eq_true] at hc
      refine ⟨hc.2, ?_⟩
      cases ci with
      | false =>
        rw [← exact_match_iff_matchesPrimary asset _ hne,
          List.any_eq_true]
        exact ⟨ext, hmem, by simp⟩
      | true =>
        rw [← lower_match_iff_matchesPrimary asset _ hne,
          List.any_eq_true]
        exact ⟨ext, hmem, by simp⟩
    · rw [if_neg hc] at hext
      cases hext
  | none =>
    rw [hfs] at h
    cases ci with
    | false => simp at h
    | true =>
      simp only [if_pos rfl] at h
      have hp := List.find?_some h
      rw [Bool.and_eq_true] at hp
      refine ⟨hp.1, ?_⟩
      rw [← lower_match_iff_matchesPrimary asset _ hne]
      exact hp.2

/-- The primary search succeeds exactly when the claim's qualification
predicate holds. -/
theorem findPrimary_isSome_iff (fs : FS) (e : Enum) (asset_dir : FPath)
    (asset : Str) (ci : Bool) (hne : asset ≠ [])
    (hv : ValidEnum fs e) :
    (findPrimary fs e asset_dir asset ci).isSome = true ↔
      HasPrimarySpec fs e asset_dir asset ci = true := by
  constructor
  · intro h
    rw [Option.isSome_iff_exists] at h
    obtain ⟨pf, hpf⟩ := h
    obtain ⟨hfile, hmatch⟩ :=
      findPrimary_some fs e asset_dir asset ci hne pf hpf
    unfold HasPrimarySpec
    rw [List.any_eq_true]
    refine ⟨pf, ?_, by rw [hfile, hmatch]; rfl⟩
    rw [(hv asset_dir).2 pf]
    unfold FS.pathExists
    rw [hfile]
    simp
  · intro h
    unfold HasPrimarySpec at h
    rw [List.any_eq_true] at h
    obtain ⟨f, hf, hcond⟩ := h
    rw [Bool.and_eq_true] at hcond
    obtain ⟨hfile, hmatch⟩ := hcond
    unfold findPrimary
    cases hfs : USD_EXTENSIONS.findSome? (fun ext =>
        if fs.pathExists (asset_dir ++ [asset ++ ext]) &&
            fs.isFile (asset_dir ++ [asset ++ ext]) then
          some (asset ++ ext)
        else none) with
    | some g => rfl
    | none =>
      cases ci with
      | false =>
        exfalso
        rw [← exact_match_iff_matchesPrimary asset f hne,
          List.any_eq_true] at hmatch
        obtain ⟨ext, hmem, heq⟩ := hmatch
        simp only [decide_eq_true_eq] at heq
        subst heq
        have hnone := List.findSome?_eq_none.mp hfs ext hmem
        by_cases hc : (fs.pathExists (asset_dir ++ [asset ++ ext]) &&
            fs.isFile (asset_dir ++ [asset ++ ext])) = true
        · rw [if_pos hc] at hnone
          cases hnone
        · apply hc
          rw [Bool.and_eq_true]
          refine ⟨?_, hfile⟩
          unfold FS.pathExists
          rw [hfile]
          simp
      | true =>
        simp only [if_pos rfl]
        cases hfind : (e asset_dir).find? (fun f =>
            fs.isFile (asset_dir ++ [f]) &&
              USD_EXTENSIONS.any
                (fun ext => lowerStr f = lowerStr (asset ++ ext))) with
        | some g => rfl
        | none =>
          exfalso
          have := List.find?_eq_none.mp hfind f hf
          apply this
          rw [Bool.and_eq_true]
          refine ⟨hfile, ?_⟩
          rw [lower_match_iff_matchesPrimary asset f hne]
          exact hmatch

/-- The first components of a guarded pair-`filterMap` are the filter of
the guard. -/
theorem map_fst_filterMap_guard {α β : Type} (c : α → Bool) (t : α → β)
    (l : List α) :
    ((l.filterMap (fun a => if c a then some (a, t a) else none)).map
      Prod.fst) = l.filter c := by
  induction l with
  | nil => rfl
  | cons a rest ih =>
    by_cases h : c a
    · simp [List.filterMap_cons, List.filter_cons, h, ih]
    · simp [List.filterMap_cons, List.filter_cons, h, ih]

/-- Unfolding `scan_asset_directory` on a non-directory. -/
theorem scan_asset_not_dir (fs : FS) (e : Enum) (parent : FPath) (n : Str)
    (ci : Bool) (h : fs.isDir (parent ++ [n]) = false) :
    scan_asset_directory fs e parent n ci = none := by
  unfold scan_asset_directory
  rw [if_pos (by simp [h])]

/-- Unfolding `scan_asset_directory` when no primary file is found. -/
theorem scan_asset_no_primary (fs : FS) (e : Enum) (parent : FPath)
    (n : Str) (ci : Bool) (hdir : fs.isDir (parent ++ [n]) = true)
    (hp : findPrimary fs e (parent ++ [n]) n ci = none) :
    scan_asset_directory fs e parent n ci = none := by
  unfold scan_asset_directory
  rw [if_neg (by simp [hdir]), hp]

/-- Unfolding `scan_asset_directory` when a primary file is found. -/
theorem scan_asset_primary_some (fs : FS) (e : Enum) (parent : FPath)
    (n : Str) (ci : Bool) (pf : Str)
    (hdir : fs.isDir (parent ++ [n]) = true)
    (hp : findPrimary fs e (parent ++ [n]) n ci = some pf) :
    scan_asset_directory fs e parent n ci =
      some
        { name := n
          primary_file := pf
          thumbnail := find_thumbnail fs e (parent ++ [n])
            ("thumbnail".toList) ci
          variants := scanVariants fs e (parent ++ [n]) ci } := by
  unfold scan_asset_directory
  rw [if_neg (by simp [hdir]), hp]

/-- The name of a scanned record is the subdirectory's name. -/
theorem scan_asset_name (fs : FS) (e : Enum) (parent : FPath) (n : Str)
    (ci : Bool) (rec : AssetRec)
    (h : scan_asset_directory fs e parent n ci = some rec) :
    rec.name = n := by
  by_cases hdir : fs.isDir (parent ++ [n]) = true
  · cases hp : findPrimary fs e (parent ++ [n]) n ci with
    | none => rw [scan_asset_no_primary fs e parent n ci hdir hp] at h; cases h
    | some pf =>
      rw [scan_asset_primary_some fs e parent n ci pf hdir hp] at h
      cases h
      rfl
  · rw [scan_asset_not_dir fs e parent n ci
      (by simpa using hdir)] at h
    cases h

/-- A subdirectory yields a record exactly when it is a directory holding
a claim-qualified primary file. -/
theorem scan_asset_isSome_iff (fs : FS) (e : Enum) (parent : FPath)
    (n : Str) (ci : Bool) (hne : n ≠ []) (hv : ValidEnum fs e) :
    (scan_asset_directory fs e parent n ci).isSome = true ↔
      (fs.isDir (parent ++ [n]) = true ∧
        HasPrimarySpec fs e (parent ++ [n]) n ci = true) := by
  by_cases hdir : fs.isDir (parent ++ [n]) = true
  · cases hp : findPrimary fs e (parent ++ [n]) n ci with
    | none =>
      rw [scan_asset_no_primary fs e parent n ci hdir hp]
      simp only [Option.isSome_none, Bool.false_eq_true, false_iff]
      rintro ⟨-, hspec⟩
      have := (findPrimary_isSome_iff fs e (parent ++ [n]) n ci hne
        hv).mpr hspec
      rw [hp] at this
      cases this
    | some pf =>
      rw [scan_asset_primary_some fs e parent n ci pf hdir hp]
      simp only [Option.isSome_some, true_iff]
      refine ⟨hdir, ?_⟩
      exact (findPrimary_isSome_iff fs e (parent ++ [n]) n ci hne
        hv).mp (by rw [hp]; rfl)
  · rw [scan_asset_not_dir fs e parent n ci (by simpa using hdir)]
    simp only [Option.isSome_none, Bool.false_eq_true, false_iff]
    rintro ⟨hd, -⟩
    exact hdir hd

/-- Any enumerated child name is nonempty in a well-formed filesystem. -/
theorem child_name_ne_nil (fs : FS) (e : Enum) (hv : ValidEnum fs e)
    (hwf : WFNames fs) (p : FPath) (n : Str) (hmem : n ∈ e p) :
    n ≠ ([] : Str) := by
  have hex := ((hv p).2 n).mp hmem
  unfold FS.pathExists FS.isFile FS.isDir at hex
  rw [Bool.or_eq_true] at hex
  have hq : p ++ [n] ∈ fs.files ++ fs.dirs := by
    rcases hex with hex | hex
    · exact List.mem_append.mpr (Or.inl (by simpa using hex))
    · exact List.mem_append.mpr (Or.inr (by simpa using hex))
  exact hwf (p ++ [n]) hq n
    (List.mem_append.mpr (Or.inr (List.mem_singleton.mpr rfl)))

/-- The per-record facts of a scanned asset: its primary file is a real
file matching the claim's primary pattern, and its variants are exactly
the USD files of the `variants/` subdirectory in enumeration order, each
paired with its computed thumbnail. -/
theorem scan_asset_some_spec (fs : FS) (e : Enum) (parent : FPath)
    (n : Str) (ci : Bool) (rec : AssetRec) (hne : n ≠ [])
    (h : scan_asset_directory fs e parent n ci = some rec) :
    fs.isFile (parent ++ [n] ++ [rec.primary_file]) = true ∧
    matchesPrimaryName n rec.primary_file ci = true ∧
    (fs.isDir (parent ++ [n] ++ ["variants".toList]) = true →
      rec.variants.map Prod.fst =
        (e (parent ++ [n] ++ ["variants".toList])).filter
          (fun f => fs.isFile (parent ++ [n] ++ ["variants".toList] ++ [f])
            && USD_EXTENSIONS.contains (suffixOf f))) ∧
    (fs.isDir (parent ++ [n] ++ ["variants".toList]) = false →
      rec.variants = []) ∧
    (∀ p ∈ rec.variants,
      fs.isFile (parent ++ [n] ++ ["variants".toList] ++ [p.1]) = true ∧
      USD_EXTENSIONS.contains (suffixOf p.1) = true ∧
      p.2 = find_thumbnail fs e (parent ++ [n] ++ ["variants".toList])
        (stemOf p.1 ++ "_thumbnail".toList) ci) := by
  by_cases hdir : fs.isDir (parent ++ [n]) = true
  · cases hp : findPrimary fs e (parent ++ [n]) n ci with
    | none =>
      rw [scan_asset_no_primary fs e parent n ci hdir hp] at h
      cases h
    | some pf =>
      rw [scan_asset_primary_some fs e parent n ci pf hdir hp] at h
      cases h
      obtain ⟨hfile, hmatch⟩ :=
        findPrimary_some fs e (parent ++ [n]) n ci hne pf hp
      refine ⟨hfile, hmatch, ?_, ?_, ?_⟩
      · intro hvd
        show (scanVariants fs e (parent ++ [n]) ci).map Prod.fst = _
        unfold scanVariants
        rw [if_pos]
        · exact map_fst_filterMap_guard _ _ _
        · rw [Bool.and_eq_true]
          refine ⟨?_, hvd⟩
          unfold FS.pathExists
          rw [hvd]
          simp
      · intro hvd
        show scanVariants fs e (parent ++ [n]) ci = []
        unfold scanVariants
        rw [if_neg]
        rw [Bool.and_eq_true]
        rintro ⟨-, hd⟩
        rw [hvd] at hd
        cases hd
      · intro p hp'
        change p ∈ scanVariants fs e (parent ++ [n]) ci at hp'
        unfold scanVariants at hp'
        by_cases hcond : (fs.pathExists (parent ++ [n] ++
            ["variants".toList]) && fs.isDir (parent ++ [n] ++
            ["variants".toList])) = true
        · rw [if_pos hcond] at hp'
          rw [List.mem_filterMap] at hp'
          obtain ⟨f, hf, hif⟩ := hp'
          by_cases hg : (fs.isFile (parent ++ [n] ++
              ["variants".toList] ++ [f]) &&
              USD_EXTENSIONS.contains (suffixOf f)) = true
          · rw [if_pos hg] at hif
            cases hif
            rw [Bool.and_eq_true] at hg
            exact ⟨hg.1, hg.2, rfl⟩
          · rw [if_neg hg] at hif
            cases hif
        · rw [if_neg hcond] at hp'
          cases hp'
  · rw [scan_asset_not_dir fs e parent n ci (by simpa using hdir)] at h
    cases h

/-- The names of the records produced by the scan loop are exactly the
qualifying subdirectory names, in enumeration order. -/
theorem scan_names_eq (fs : FS) (e : Enum) (root : FPath) (ci : Bool)
    (hv : ValidEnum fs e) :
    ∀ l : List Str, (∀ n ∈ l, n ≠ ([] : Str)) →
      ((l.filterMap (fun n =>
        if fs.isDir (root ++ [n]) then
          scan_asset_directory fs e root n ci
        else none)).map (·.name))
        = l.filter (fun n => fs.isDir (root ++ [n]) &&
            HasPrimarySpec fs e (root ++ [n]) n ci) := by
  intro l hl
  induction l with
  | nil => rfl
  | cons n rest ih =>
    have hne : n ≠ ([] : Str) := hl n (List.mem_cons_self n rest)
    have ihr := ih (fun m hm => hl m (List.mem_cons_of_mem _ hm))
    by_cases hdir : fs.isDir (root ++ [n]) = true
    · cases hscan : scan_asset_directory fs e root n ci with
      | some rec =>
        have hspec : HasPrimarySpec fs e (root ++ [n]) n ci = true :=
          ((scan_asset_isSome_iff fs e root n ci hne hv).mp
            (by rw [hscan]; rfl)).2
        rw [List.filterMap_cons, if_pos hdir, hscan, List.map_cons,
          List.filter_cons, ihr]
        rw [scan_asset_name fs e root n ci rec hscan]
        rw [hdir, hspec]
        rfl
      | none =>
        have hspec : ¬ (fs.isDir (root ++ [n]) = true ∧
            HasPrimarySpec fs e (root ++ [n]) n ci = true) := by
          intro hc
          have := (scan_asset_isSome_iff fs e root n ci hne hv).mpr hc
          rw [hscan] at this
          cases this
        have hspec' : HasPrimarySpec fs e (root ++ [n]) n ci = false := by
          rcases hb : HasPrimarySpec fs e (root ++ [n]) n ci with _ | _
          · rfl
          · exact absurd ⟨hdir, hb⟩ hspec
        rw [List.filterMap_cons, if_pos hdir, hscan, List.filter_cons,
          ihr, hdir, hspec']
        rfl
    · have hdir' : fs.isDir (root ++ [n]) = false := by
        simpa using hdir
      rw [List.filterMap_cons, if_neg (by rw [hdir']; simp),
        List.filter_cons, ihr, hdir']
      rfl

/-- Unfolding `scan_assets_directory` on an existing directory root. -/
theorem scan_assets_eq (fs : FS) (e : Enum) (root : FPath) (ci : Bool)
    (hroot : fs.isDir root = true) :
    scan_assets_directory fs e root ci =
      ((e root).filterMap (fun n =>
        if fs.isDir (root ++ [n]) then
          scan_asset_directory fs e root n ci
        else none)).mergeSort (fun a b => lexLe a.name b.name) := by
  unfold scan_assets_directory
  have hex : fs.pathExists root = true := by
    unfold FS.pathExists
    rw [hroot]
    simp
  rw [if_neg (by rw [hex]; simp), if_neg (by rw [hroot]; simp)]

/-- **C4.** For every assets directory (any well-formed filesystem, valid
enumeration and directory root), `scan_assets_directory` returns exactly
one record per immediate subdirectory containing a primary USD file whose
stem equals the subdirectory's name and whose extension is `.usd`,
`.usda`, or `.usdc` (case-insensitively when enabled); subdirectories
without such a file contribute no record; the records are sorted in
ascending order of asset name; the chosen primary is such a file; each
record's variants are exactly the USD files directly in its `variants/`
subdirectory, each paired with an existing `<variantname>_thumbnail` image
file when one exists there (`none` exactly when none exists). -/
theorem scan_assets_directory_spec (fs : FS) (e : Enum) (root : FPath)
    (ci : Bool) (hv : ValidEnum fs e) (hwf : WFNames fs)
    (hroot : fs.isDir root = true) :
    (scan_assets_directory fs e root ci).Pairwise
      (fun a b => lexLe a.name b.name = true) ∧
    ((scan_assets_directory fs e root ci).map (·.name)).Perm
      ((e root).filter (fun n => fs.isDir (root ++ [n]) &&
        HasPrimarySpec fs e (root ++ [n]) n ci)) ∧
    ((e root).filter (fun n => fs.isDir (root ++ [n]) &&
        HasPrimarySpec fs e (root ++ [n]) n ci)).Nodup ∧
    (∀ rec ∈ scan_assets_directory fs e root ci,
      (fs.isFile (root ++ [rec.name] ++ [rec.primary_file]) = true ∧
        matchesPrimaryName rec.name rec.primary_file ci = true) ∧
      (fs.isDir (root ++ [rec.name] ++ ["variants".toList]) = true →
        rec.variants.map Prod.fst =
          (e (root ++ [rec.name] ++ ["variants".toList])).filter
            (fun f => fs.isFile
                (root ++ [rec.name] ++ ["variants".toList] ++ [f]) &&
              USD_EXTENSIONS.contains (suffixOf f)) ∧
        (rec.variants.map Prod.fst).Nodup) ∧
      (fs.isDir (root ++ [rec.name] ++ ["variants".toList]) = false →
        rec.variants = []) ∧
      (∀ p ∈ rec.variants,
        (p.2 = none →
          ∀ f ∈ e (root ++ [rec.name] ++ ["variants".toList]),
            ¬(fs.isFile (root ++ [rec.name] ++ ["variants".toList] ++ [f])
                = true ∧
              matchesThumbName (stemOf p.1 ++ "_thumbnail".toList) f ci
                = true)) ∧
        (∀ t, p.2 = some t →
          fs.isFile (root ++ [rec.name] ++ ["variants".toList] ++ [t])
              = true ∧
            matchesThumbName (stemOf p.1 ++ "_thumbnail".toList) t ci
              = true))) := by
  have hmem_char : ∀ rec, rec ∈ scan_assets_directory fs e root ci →
      ∃ n ∈ e root, n ≠ ([] : Str) ∧
        scan_asset_directory fs e root n ci = some rec := by
    intro rec hrec
    rw [scan_assets_eq fs e root ci hroot, List.mem_mergeSort,
      List.mem_filterMap] at hrec
    obtain ⟨n, hn, hif⟩ := hrec
    by_cases hdir : fs.isDir (root ++ [n]) = true
    · rw [if_pos hdir] at hif
      exact ⟨n, hn, child_name_ne_nil fs e hv hwf root n hn, hif⟩
    · rw [if_neg hdir] at hif
      cases hif
  refine ⟨?_, ?_, ?_, ?_⟩
  · rw [scan_assets_eq fs e root ci hroot]
    exact List.sorted_mergeSort
      (fun a b c hab hbc => lexLe_trans a.name b.name c.name hab hbc)
      (fun a b => lexLe_total a.name b.name) _
  · rw [scan_assets_eq fs e root ci hroot]
    have hperm := (List.mergeSort_perm ((e root).filterMap (fun n =>
      if fs.isDir (root ++ [n]) then scan_asset_directory fs e root n ci
      else none)) (fun a b => lexLe a.name b.name)).map (·.name)
    rw [scan_names_eq fs e root ci hv (e root)
      (fun n hn => child_name_ne_nil fs e hv hwf root n hn)] at hperm
    exact hperm
  · exact (hv root).1.filter _
  · intro rec hrec
    obtain ⟨n, _, hne, hscan⟩ := hmem_char rec hrec
    have hname := scan_asset_name fs e root n ci rec hscan
    subst hname
    obtain ⟨hfile, hmatch, hvar_eq, hvar_nil, hvar_pairs⟩ :=
      scan_asset_some_spec fs e root rec.name ci rec hne hscan
    refine ⟨⟨hfile, hmatch⟩, ?_, hvar_nil, ?_⟩
    · intro hvd
      refine ⟨hvar_eq hvd, ?_⟩
      rw [hvar_eq hvd]
      exact (hv (root ++ [rec.name] ++ ["variants".toList])).1.filter _
    · intro p hp
      obtain ⟨hpf, hpsfx, hpthumb⟩ := hvar_pairs p hp
      constructor
      · intro hnone
        rw [hpthumb] at hnone
        exact find_thumbnail_none fs e _ _ ci hnone
      · intro t ht
        rw [hpthumb] at ht
        exact find_thumbnail_some fs e _ _ ci t ht

/-- A concrete assets tree: `book/` with a primary, a thumbnail and two
variants, and `junk/` without a primary. -/
def exFS : FS :=
  { files := [["book".toList, "book.usd".toList],
      ["book".toList, "thumbnail.jpg".toList],
      ["book".toList, "variants".toList, "v1.usda".toList],
      ["book".toList, "variants".toList, "v1_thumbnail.png".toList],
      ["book".toList, "variants".toList, "v2.usda".toList],
      ["junk".toList, "readme.txt".toList]]
    dirs := [[], ["book".toList], ["book".toList, "variants".toList],
      ["junk".toList]] }

/-- Witness for C4 at the concrete tree `exFS` with its canonical
enumeration. -/
theorem scan_assets_directory_spec_witness :
    WFNames exFS ∧ exFS.isDir [] = true ∧
      ((scan_assets_directory exFS (childNames exFS) [] true).map
        (·.name)).Perm
        ((childNames exFS []).filter (fun n => exFS.isDir ([] ++ [n]) &&
          HasPrimarySpec exFS (childNames exFS) ([] ++ [n]) n true)) :=
  ⟨by unfold WFNames; decide, by decide,
    (scan_assets_directory_spec exFS (childNames exFS) [] true
      (validEnum_childNames exFS) (by unfold WFNames; decide)
      (by decide)).2.1⟩

/-- Two sorted lists that are permutations of each other and have pairwise
distinct keys are equal. -/
theorem eq_of_perm_sorted_nodup_keys {α : Type} (key : α → Str) :
    ∀ (l1 l2 : List α), l1.Perm l2 →
      l1.Pairwise (fun a b => lexLe (key a) (key b) = true) →
      l2.Pairwise (fun a b => lexLe (key a) (key b) = true) →
      (l1.map key).Nodup → l1 = l2 := by
  intro l1
  induction l1 with
  | nil =>
    intro l2 hperm _ _ _
    exact hperm.nil_eq
  | cons a t1 ih =>
    intro l2 hperm hs1 hs2 hnd
    cases l2 with
    | nil => exact absurd hperm.symm.nil_eq (by simp)
    | cons b t2 =>
      have hab : a = b := by
        have hain : a ∈ b :: t2 := hperm.subset (List.mem_cons_self a t1)
        have hbin : b ∈ a :: t1 := hperm.symm.subset
          (List.mem_cons_self b t2)
        rcases List.mem_cons.mp hain with h1 | h1
        · exact h1
        rcases List.mem_cons.mp hbin with h2 | h2
        · exact h2.symm
        have hba : lexLe (key b) (key a) = true :=
          (List.pairwise_cons.mp hs2).1 a h1
        have hab' : lexLe (key a) (key b) = true :=
          (List.pairwise_cons.mp hs1).1 b h2
        have hk : key a = key b := lexLe_antisymm _ _ hab' hba
        exfalso
        have : key a ∉ t1.map key := (List.nodup_cons.mp hnd).1
        exact this (hk ▸ List.mem_map_of_mem key h2)
      subst hab
      have ht : t1 = t2 := ih t2 hperm.cons_inv
        (List.pairwise_cons.mp hs1).2 (List.pairwise_cons.mp hs2).2
        (List.nodup_cons.mp hnd).2
      rw [ht]

/-- With case-insensitive mode disabled, the thumbnail search never reads
the directory listing. -/
theorem find_thumbnail_enum_indep (fs : FS) (e1 e2 : Enum) (dir : FPath)
    (base : Str) :
    find_thumbnail fs e1 dir base false =
      find_thumbnail fs e2 dir base false := by
  unfold find_thumbnail
  cases THUMBNAIL_EXTENSIONS.findSome? (fun ext =>
      if fs.pathExists (dir ++ [base ++ ext]) &&
          fs.isFile (dir ++ [base ++ ext]) then some (base ++ ext)
      else none) with
  | some g => rfl
  | none => rfl

/-- With case-insensitive mode disabled, the primary search never reads
the directory listing. -/
theorem findPrimary_enum_indep (fs : FS) (e1 e2 : Enum)
    (asset_dir : FPath) (asset : Str) :
    findPrimary fs e1 asset_dir asset false =
      findPrimary fs e2 asset_dir asset false := by
  unfold findPrimary
  cases USD_EXTENSIONS.findSome? (fun ext =>
      if fs.pathExists (asset_dir ++ [asset ++ ext]) &&
          fs.isFile (asset_dir ++ [asset ++ ext]) then
        some (asset ++ ext)
      else none) with
  | some g => rfl
  | none => rfl

/-- A record with its variants sorted by variant file name: the canonical
form used to compare scans up to variant order. -/
def canonRec (r : AssetRec) : AssetRec :=
  { r with variants :=
      r.variants.insertionSort (fun a b => lexLe a.1 b.1 = true) }

/-- The scan result with each record's variants in canonical order. -/
def canonScan (fs : FS) (e : Enum) (root : FPath) (ci : Bool) :
    List AssetRec :=
  (scan_assets_directory fs e root ci).map canonRec

/-- With case-insensitive mode disabled, two valid enumerations give the
same canonical record for each subdirectory. -/
theorem scan_asset_canon_enum_indep (fs : FS) (e1 e2 : Enum)
    (root : FPath) (n : Str) (hv1 : ValidEnum fs e1)
    (hv2 : ValidEnum fs e2) :
    (scan_asset_directory fs e1 root n false).map canonRec =
      (scan_asset_directory fs e2 root n false).map canonRec := by
  by_cases hdir : fs.isDir (root ++ [n]) = true
  · have hprim := findPrimary_enum_indep fs e1 e2 (root ++ [n]) n
    cases hp : findPrimary fs e1 (root ++ [n]) n false with
    | none =>
      rw [scan_asset_no_primary fs e1 root n false hdir hp,
        scan_asset_no_primary fs e2 root n false hdir (hprim ▸ hp)]
    | some pf =>
      rw [scan_asset_primary_some fs e1 root n false pf hdir hp,
        scan_asset_primary_some fs e2 root n false pf hdir (hprim ▸ hp)]
      have hperm : (scanVariants fs e1 (root ++ [n]) false).Perm
          (scanVariants fs e2 (root ++ [n]) false) := by
        unfold scanVariants
        by_cases hvd : (fs.pathExists (root ++ [n] ++
            ["variants".toList]) && fs.isDir (root ++ [n] ++
            ["variants".toList])) = true
        · rw [if_pos hvd, if_pos hvd]
          have hep : (e1 (root ++ [n] ++ ["variants".toList])).Perm
              (e2 (root ++ [n] ++ ["variants".toList])) := by
            rw [List.perm_ext_iff_of_nodup
              (hv1 (root ++ [n] ++ ["variants".toList])).1
              (hv2 (root ++ [n] ++ ["variants".toList])).1]
            intro f
            rw [(hv1 _).2 f, (hv2 _).2 f]
          have hfun : ∀ f ∈ e2 (root ++ [n] ++ ["variants".toList]),
              (if fs.isFile (root ++ [n] ++ ["variants".toList] ++ [f])
                  && USD_EXTENSIONS.contains (suffixOf f) then
                some (f, find_thumbnail fs e2
                  (root ++ [n] ++ ["variants".toList])
                  (stemOf f ++ "_thumbnail".toList) false)
              else none) =
              (if fs.isFile (root ++ [n] ++ ["variants".toList] ++ [f])
                  && USD_EXTENSIONS.contains (suffixOf f) then
                some (f, find_thumbnail fs e1
                  (root ++ [n] ++ ["variants".toList])
                  (stemOf f ++ "_thumbnail".toList) false)
              else none) := by
            intro f _
            rw [find_thumbnail_enum_indep fs e2 e1]
          rw [List.filterMap_congr hfun]
          exact List.Perm.filterMap _ hep
        · rw [if_neg hvd, if_neg hvd]
      have hnd : ((scanVariants fs e1 (root ++ [n]) false).map
          Prod.fst).Nodup := by
        unfold scanVariants
        by_cases hvd : (fs.pathExists (root ++ [n] ++
            ["variants".toList]) && fs.isDir (root ++ [n] ++
            ["variants".toList])) = true
        · rw [if_pos hvd, map_fst_filterMap_guard]
          exact (hv1 (root ++ [n] ++ ["variants".toList])).1.filter _
        · rw [if_neg hvd]
          exact List.nodup_nil
      have hts : IsTrans (Str × Option Str)
          (fun a b => lexLe a.1 b.1 = true) :=
        ⟨fun a b c => lexLe_trans a.1 b.1 c.1⟩
      have htot : IsTotal (Str × Option Str)
          (fun a b => lexLe a.1 b.1 = true) :=
        ⟨fun a b => by
          rcases Bool.or_eq_true_iff.mp (lexLe_total a.1 b.1) with h | h
          · exact Or.inl h
          · exact Or.inr h⟩
      have hvs : (scanVariants fs e1 (root ++ [n]) false).insertionSort
            (fun a b => lexLe a.1 b.1 = true) =
          (scanVariants fs e2 (root ++ [n]) false).insertionSort
            (fun a b => lexLe a.1 b.1 = true) := by
        refine eq_of_perm_sorted_nodup_keys Prod.fst _ _ ?_ ?_ ?_ ?_
        · exact ((List.perm_insertionSort _ _).trans hperm).trans
            (List.perm_insertionSort _ _).symm
        · exact @List.sorted_insertionSort _ _ _ htot hts _
        · exact @List.sorted_insertionSort _ _ _ htot hts _
        · have hmp := (List.perm_insertionSort
            (fun a b : Str × Option Str => lexLe a.1 b.1 = true)
            (scanVariants fs e1 (root ++ [n]) false)).map Prod.fst
          exact hmp.nodup_iff.mpr hnd
      rw [Option.map_some', Option.map_some']
      unfold canonRec
      rw [hvs, find_thumbnail_enum_indep fs e1 e2 (root ++ [n])
        ("thumbnail".toList)]
  · have h1 := scan_asset_not_dir fs e1 root n false (by simpa using hdir)
    have h2 := scan_asset_not_dir fs e2 root n false (by simpa using hdir)
    rw [h1, h2]

/-- A root that is not a directory scans to the empty list. -/
theorem scan_assets_not_dir (fs : FS) (e : Enum) (root : FPath)
    (ci : Bool) (h : fs.isDir root = false) :
    scan_assets_directory fs e root ci = [] := by
  unfold scan_assets_directory
  by_cases hex : fs.pathExists root = true
  · rw [if_neg (by rw [hex]; simp), if_pos (by rw [h]; simp)]
  · rw [if_pos (by simpa using hex)]

/-- The record names of the scan loop form a sublist of the enumerated
child names. -/
theorem scan_names_sublist (fs : FS) (e : Enum) (root : FPath)
    (ci : Bool) :
    ∀ l : List Str,
      List.Sublist ((l.filterMap (fun n =>
        if fs.isDir (root ++ [n]) then
          scan_asset_directory fs e root n ci
        else none)).map (·.name)) l := by
  intro l
  induction l with
  | nil => simp
  | cons n rest ih =>
    rw [List.filterMap_cons]
    by_cases hdir : fs.isDir (root ++ [n]) = true
    · rw [if_pos hdir]
      cases hscan : scan_asset_directory fs e root n ci with
      | none => exact ih.cons n
      | some rec =>
        rw [List.map_cons, scan_asset_name fs e root n ci rec hscan]
        exact ih.cons₂ n
    · rw [if_neg hdir]
      exact ih.cons n

/-- **C6, amended.** With case-insensitive matching disabled, any two runs
of `scan_assets_directory` over identical directory contents return the
same records — same names in the same sorted order, same chosen primary
file and thumbnail per record, and the same variant/thumbnail pairs —
up to the order of each record's variants list (which follows the
filesystem enumeration order): the canonical results, with each record's
variants sorted by variant file name, are equal. -/
theorem scan_assets_enum_independent (fs : FS) (e1 e2 : Enum)
    (root : FPath) (hv1 : ValidEnum fs e1) (hv2 : ValidEnum fs e2) :
    canonScan fs e1 root false = canonScan fs e2 root false := by
  by_cases hroot : fs.isDir root = true
  · unfold canonScan
    rw [scan_assets_eq fs e1 root false hroot,
      scan_assets_eq fs e2 root false hroot]
    have hroots : (e1 root).Perm (e2 root) := by
      rw [List.perm_ext_iff_of_nodup (hv1 root).1 (hv2 root).1]
      intro n
      rw [(hv1 root).2 n, (hv2 root).2 n]
    have hfun : ∀ n ∈ e1 root,
        ((if fs.isDir (root ++ [n]) then
          scan_asset_directory fs e1 root n false
        else none).map canonRec) =
        ((if fs.isDir (root ++ [n]) then
          scan_asset_directory fs e2 root n false
        else none).map canonRec) := by
      intro n _
      by_cases hdir : fs.isDir (root ++ [n]) = true
      · rw [if_pos hdir, if_pos hdir]
        exact scan_asset_canon_enum_indep fs e1 e2 root n hv1 hv2
      · rw [if_neg hdir, if_neg hdir]
    have hperm : (((e1 root).filterMap (fun n =>
        if fs.isDir (root ++ [n]) then
          scan_asset_directory fs e1 root n false
        else none)).map canonRec).Perm
        (((e2 root).filterMap (fun n =>
          if fs.isDir (root ++ [n]) then
            scan_asset_directory fs e2 root n false
          else none)).map canonRec) := by
      rw [List.map_filterMap, List.map_filterMap]
      rw [List.filterMap_congr hfun]
      exact List.Perm.filterMap _ hroots
    have hsorted : ∀ (e : Enum),
        (((( e root).filterMap (fun n =>
          if fs.isDir (root ++ [n]) then
            scan_asset_directory fs e root n false
          else none)).mergeSort (fun a b => lexLe a.name b.name)).map
          canonRec).Pairwise
          (fun a b => lexLe a.name b.name = true) := by
      intro e
      rw [List.pairwise_map]
      have := @List.sorted_mergeSort AssetRec
        (fun a b : AssetRec => lexLe a.name b.name)
        (fun a b c hab hbc => lexLe_trans a.name b.name c.name hab hbc)
        (fun a b => lexLe_total a.name b.name)
        ((e root).filterMap (fun n =>
          if fs.isDir (root ++ [n]) then
            scan_asset_directory fs e root n false
          else none))
      exact this.imp (fun h => h)
    have hnd : ((((e1 root).filterMap (fun n =>
        if fs.isDir (root ++ [n]) then
          scan_asset_directory fs e1 root n false
        else none)).mergeSort (fun a b => lexLe a.name b.name)).map
        canonRec).map (·.name) |>.Nodup := by
      rw [List.map_map]
      have hcomp : ((fun r : AssetRec => r.name) ∘ canonRec)
          = (fun r : AssetRec => r.name) := rfl
      rw [hcomp]
      have hp := (List.mergeSort_perm ((e1 root).filterMap (fun n =>
        if fs.isDir (root ++ [n]) then
          scan_asset_directory fs e1 root n false
        else none)) (fun a b => lexLe a.name b.name)).map
        (fun r : AssetRec => r.name)
      refine hp.nodup_iff.mpr ?_
      exact (hv1 root).1.sublist (scan_names_sublist fs e1 root false
        (e1 root))
    refine eq_of_perm_sorted_nodup_keys (·.name) _ _ ?_ ?_ ?_ hnd
    · refine (((List.mergeSort_perm _ _).map canonRec).trans
        hperm).trans ((List.mergeSort_perm _ _).map canonRec).symm
    · exact hsorted e1
    · exact hsorted e2
  · unfold canonScan
    rw [scan_assets_not_dir fs e1 root false (by simpa using hroot),
      scan_assets_not_dir fs e2 root false (by simpa using hroot)]

/-- A second concrete tree for the case-insensitive mode: two files that
both lowercase-match the primary pattern, differing only in case. -/
def exFS2 : FS :=
  { files := [["book".toList, "BOOK.USD".toList],
      ["book".toList, "Book.Usd".toList]]
    dirs := [[], ["book".toList]] }

/-- The record `scan_asset_directory` produces for `book/` of `exFS` under
the canonical enumeration. -/
def exBookRec : AssetRec :=
  { name := "book".toList
    primary_file := "book.usd".toList
    thumbnail := some ("thumbnail.jpg".toList)
    variants := [("v1.usda".toList, some ("v1_thumbnail.png".toList)),
      ("v2.usda".toList, none)] }

/-- The record for `book/` of `exFS2` under the canonical enumeration in
case-insensitive mode. -/
def exBookRec2 : AssetRec :=
  { name := "book".toList
    primary_file := "BOOK.USD".toList
    thumbnail := none
    variants := [] }

/-- **C6, counterexample.** Two enumerations of the same directory
contents (the canonical one and its reversal — both valid) give different
scan results: the variants of `book/` come back in enumeration order, so
the records differ; and in case-insensitive mode even the chosen primary
file differs (`BOOK.USD` versus `Book.Usd`), so the results differ even
after sorting each record's variants. -/
theorem scan_assets_enum_order_counterexample :
    ValidEnum exFS (childNames exFS) ∧
    ValidEnum exFS (fun p => (childNames exFS p).reverse) ∧
    scan_assets_directory exFS (childNames exFS) [] false ≠
      scan_assets_directory exFS
        (fun p => (childNames exFS p).reverse) [] false ∧
    ValidEnum exFS2 (childNames exFS2) ∧
    ValidEnum exFS2 (fun p => (childNames exFS2 p).reverse) ∧
    canonScan exFS2 (childNames exFS2) [] true ≠
      canonScan exFS2 (fun p => (childNames exFS2 p).reverse) [] true := by
  refine ⟨validEnum_childNames exFS,
    validEnum_reverse exFS (childNames exFS) (validEnum_childNames exFS),
    ?_, validEnum_childNames exFS2,
    validEnum_reverse exFS2 (childNames exFS2)
      (validEnum_childNames exFS2), ?_⟩
  · have h1 : exBookRec ∈
        scan_assets_directory exFS (childNames exFS) [] false := by
      rw [scan_assets_eq exFS (childNames exFS) [] false (by decide),
        List.mem_mergeSort]
      decide
    have h2 : exBookRec ∉
        scan_assets_directory exFS
          (fun p => (childNames exFS p).reverse) [] false := by
      rw [scan_assets_eq exFS _ [] false (by decide),
        List.mem_mergeSort]
      decide
    intro heq
    rw [heq] at h1
    exact h2 h1
  · have h1 : canonRec exBookRec2 ∈
        canonScan exFS2 (childNames exFS2) [] true := by
      unfold canonScan
      rw [scan_assets_eq exFS2 (childNames exFS2) [] true (by decide)]
      rw [List.mem_map]
      exact ⟨exBookRec2, List.mem_mergeSort.mpr (by decide), rfl⟩
    have h2 : canonRec exBookRec2 ∉
        canonScan exFS2 (fun p => (childNames exFS2 p).reverse)
          [] true := by
      intro hmem
      unfold canonScan at hmem
      rw [scan_assets_eq exFS2 _ [] true (by decide),
        List.mem_map] at hmem
      obtain ⟨rec, hrec, hceq⟩ := hmem
      rw [List.mem_mergeSort] at hrec
      have hall : ∀ r ∈ (((fun p => (childNames exFS2 p).reverse)
          ([] : FPath)).filterMap (fun n =>
            if exFS2.isDir (([] : FPath) ++ [n]) then
              scan_asset_directory exFS2
                (fun p => (childNames exFS2 p).reverse) [] n true
            else none)),
          canonRec r ≠ canonRec exBookRec2 := by decide
      exact hall rec hrec hceq
    intro heq
    rw [heq] at h1
    exact h2 h1

/-- Witness for C6 (amended) at the concrete tree `exFS`: the canonical
enumeration and its reversal give equal canonical scans. -/
theorem scan_assets_enum_independent_witness :
    ValidEnum exFS (childNames exFS) ∧
      canonScan exFS (childNames exFS) [] false =
        canonScan exFS (fun p => (childNames exFS p).reverse) [] false :=
  ⟨validEnum_childNames exFS,
    scan_assets_enum_independent exFS (childNames exFS)
      (fun p => (childNames exFS p).reverse) []
      (validEnum_childNames exFS)
      (validEnum_reverse exFS (childNames exFS)
        (validEnum_childNames exFS))⟩

end AssetScan
